import Mathlib

/-!
# Verification of the math-chompers game core

A shallow embedding of the game's core logic (rule engine, grid generator,
movement engine, Troggle AI, scoring engine) in Lean 4, together with proofs
of the specification's testable properties.

Conventions of the embedding:
* JavaScript numbers that are only ever integers are modelled as `Int`
  (or `Nat` where the source keeps them non-negative); quantities that the
  source manipulates as fractional numbers (probabilities, multipliers)
  are modelled as exact rationals `ℚ` — the idealised arithmetic the
  specification's formulas are written in.
* `Math.random()` is modelled by an injected stream of raw draws (`Rng`);
  `randInt lo hi` maps a raw draw into `[lo, hi]`.  All theorems quantify
  over the stream, so they hold for every sequence of random outcomes.
* A cell value `number | string` (the strings are always two-operand
  `"a+b"` / `"a-b"` expressions with non-negative operands) is modelled as
  the tagged type `Value`; `Value.vadd a b` stands for the string `"a+b"`
  and `Value.vsub a b` for `"a-b"`.  The source's `value.includes('+')` /
  `split('+')` dispatch corresponds exactly to matching on the tag for
  such strings.
* The one unbounded loop of the source (sampling distinct grid positions)
  is given explicit fuel and returns `Option`; a `none` corresponds to a
  random stream on which the JavaScript loop would not have terminated
  either.
-/

namespace Chompers

/-- The random source: an infinite stream of raw non-negative draws plus a
cursor.  Each call to `Math.random()` consumes one raw draw. -/
structure Rng where
  stream : Nat → Nat
  idx : Nat

/-- Consume one raw draw. -/
def Rng.take (g : Rng) : Nat × Rng :=
  (g.stream g.idx, ⟨g.stream, g.idx + 1⟩)

/-- `randInt(min, max)` from gameUtils.ts: a uniform integer in
`[min, max]` (for `min ≤ max`).  The raw draw is reduced mod the size of
the range. -/
def randInt (lo hi : Int) (g : Rng) : Int × Rng :=
  let (n, g') := g.take
  (lo + (n : Int) % (hi - lo + 1), g')

theorem randInt_le {lo hi : Int} (h : lo ≤ hi) (g : Rng) :
    lo ≤ (randInt lo hi g).1 ∧ (randInt lo hi g).1 ≤ hi := by
  unfold randInt
  have hpos : (0 : Int) < hi - lo + 1 := by omega
  have h1 : 0 ≤ ((g.take.1 : Int)) % (hi - lo + 1) := Int.emod_nonneg _ (by omega)
  have h2 : ((g.take.1 : Int)) % (hi - lo + 1) < hi - lo + 1 :=
    Int.emod_lt_of_pos _ hpos
  constructor <;> simp only [] <;> omega

/-- `Math.random()`, used only through comparisons with probabilities in
`[0,1]`; modelled as an exact rational in `[0,1)` derived from one raw
draw. -/
def mathRandom (g : Rng) : ℚ × Rng :=
  let (n, g') := g.take
  (((n % 1024 : ℕ) : ℚ) / 1024, g')

/-- The six game rules (types.ts `GameRule`). -/
inductive GameRule where
  | multiples | factors | primes | addition | subtraction | mixed
  deriving DecidableEq, Repr

/-- A cell value: either a plain integer or a two-operand arithmetic
expression string (`"a+b"` / `"a-b"`, operands non-negative as generated
by the game). -/
inductive Value where
  | num (n : Int)
  | vadd (a b : Nat)
  | vsub (a b : Nat)
  deriving DecidableEq, Repr

instance : OfNat Value n := ⟨Value.num n⟩

instance : BEq Value := ⟨fun a b => decide (a = b)⟩

theorem Value.beq_iff (a b : Value) : (a == b) = true ↔ a = b := by
  simp [BEq.beq]

/-- Trial-division helper for `isPrime`: the loop
`for (let i = 2; i * i <= n; i++) if (n % i === 0) return false`. -/
def isPrimeLoop (m : Nat) (i : Nat) : Bool :=
  if h : i * i ≤ m then
    if m % i == 0 then false else isPrimeLoop m (i + 1)
  else
    true
termination_by m + 1 - i
decreasing_by
  have : 1 ≤ i ∨ i = 0 := by omega
  rcases this with h1 | h1
  · have : i ≤ m := le_trans (Nat.le_mul_of_pos_left i h1) h
    omega
  · subst h1; simp at h; omega

/-- `isPrime` from gameUtils.ts: values below 2 are not prime; otherwise
trial division up to the square root. -/
def isPrime (n : Int) : Bool :=
  if n < 2 then false else isPrimeLoop n.toNat 2

theorem isPrimeLoop_eq (m i : Nat) :
    isPrimeLoop m i = true ↔ ∀ k, i ≤ k → k * k ≤ m → ¬ (k ∣ m) := by
  suffices H : ∀ fuel j, m + 1 - j ≤ fuel →
      (isPrimeLoop m j = true ↔ ∀ k, j ≤ k → k * k ≤ m → ¬ (k ∣ m)) from
    H (m + 1 - i) i le_rfl
  intro fuel
  induction fuel with
  | zero =>
    intro j hj
    rw [isPrimeLoop]
    have hjm : m < j := by omega
    have hno : ¬ j * j ≤ m := by
      intro hle
      rcases Nat.eq_zero_or_pos j with h0 | h0
      · omega
      · exact absurd (le_trans (Nat.le_mul_of_pos_left j h0) hle) (by omega)
    rw [dif_neg hno]
    constructor
    · intro _ k hk hkk hd
      rcases Nat.eq_zero_or_pos k with h0 | h0
      · omega
      · exact absurd (le_trans (Nat.le_mul_of_pos_left k h0) hkk) (by omega)
    · intro _; rfl
  | succ f ihf =>
    intro j hj
    rw [isPrimeLoop]
    by_cases h : j * j ≤ m
    · rw [dif_pos h]
      by_cases hdvd : m % j = 0
      · rw [if_pos (by simpa using hdvd)]
        constructor
        · intro hfalse; exact absurd hfalse (by simp)
        · intro hall
          exact absurd (Nat.dvd_of_mod_eq_zero hdvd) (hall j le_rfl h)
      · rw [if_neg (by simpa using hdvd)]
        rw [ihf (j + 1) (by omega)]
        constructor
        · intro hall k hk hkk
          rcases Nat.lt_or_ge j k with hlt | hge
          · exact hall k hlt hkk
          · have hkj : k = j := le_antisymm hge hk
            subst hkj
            rintro ⟨c, rfl⟩
            simp [Nat.mul_mod_right] at hdvd
        · intro hall k hk hkk
          exact hall k (by omega) hkk
    · rw [dif_neg h]
      constructor
      · intro _ k hk hkk hd
        rcases Nat.eq_zero_or_pos k with h0 | h0
        · subst h0
          have hk0 : j = 0 := by omega
          subst hk0
          simp at h
        · exact h (le_trans (Nat.mul_le_mul hk hk) hkk)
      · intro _; rfl

/-- `isPrime` agrees with mathematical primality: `isPrime n` is `true`
exactly when `n ≥ 0` and `n.toNat` is a prime number. -/
theorem isPrime_iff (n : Int) : isPrime n = true ↔ Nat.Prime n.toNat := by
  unfold isPrime
  by_cases h : n < 2
  · rw [if_pos h]
    constructor
    · intro hfalse; exact absurd hfalse (by simp)
    · intro hp
      exfalso
      have h2 : 2 ≤ n.toNat := hp.two_le
      omega
  · rw [if_neg h]
    push_neg at h
    have h2 : 2 ≤ n.toNat := by omega
    rw [isPrimeLoop_eq]
    rw [Nat.prime_def_le_sqrt]
    constructor
    · intro hall
      refine ⟨h2, fun m hm hsq => hall m hm ?_⟩
      calc m * m ≤ Nat.sqrt n.toNat * Nat.sqrt n.toNat :=
            Nat.mul_le_mul hsq hsq
        _ ≤ n.toNat := Nat.sqrt_le n.toNat
    · rintro ⟨-, hall⟩ k hk hkk
      exact hall k hk (Nat.le_sqrt.mpr hkk)

/-- The correctness test from App.tsx (`muncherEatWithSound` /
`muncherEatWithScoringAndSound`): decides whether a cell value satisfies
the active rule for the given target number.  This is the game's single
source of truth for "is this cell correct". -/
def isCorrect (v : Value) (rule : GameRule) (target : Int) : Bool :=
  match rule with
  | .multiples =>
      match v with
      | .num n => decide (target > 0) && (n % target == 0)
      | _ => false
  | .factors =>
      match v with
      | .num n => decide (target > 0) && decide (n > 0) && (target % n == 0)
      | _ => false
  | .primes =>
      match v with
      | .num n => isPrime n
      | _ => false
  | .addition =>
      match v with
      | .vadd a b => (a : Int) + b == target
      | _ => false
  | .subtraction =>
      match v with
      | .vsub a b => (a : Int) - b == target
      | _ => false
  | .mixed =>
      match v with
      | .vadd a b => (a : Int) + b == target
      | .vsub a b => (a : Int) - b == target
      | _ => false

/-- The claim's direct-arithmetic reading of the correctness test,
written from the specification's words (§4.1): divisibility for
multiples/factors, mathematical primality for primes, exact sums and
differences for the expression rules, and operator dispatch for mixed. -/
def isCorrectSpec (v : Value) (rule : GameRule) (target : Int) : Bool :=
  match rule with
  | .multiples =>
      match v with
      | .num n => decide (0 < target ∧ target ∣ n)
      | _ => false
  | .factors =>
      match v with
      | .num n => decide (0 < target ∧ 0 < n ∧ n ∣ target)
      | _ => false
  | .primes =>
      match v with
      | .num n => decide (Nat.Prime n.toNat ∧ 0 ≤ n)
      | _ => false
  | .addition =>
      match v with
      | .vadd a b => decide ((a : Int) + b = target)
      | _ => false
  | .subtraction =>
      match v with
      | .vsub a b => decide ((a : Int) - b = target)
      | _ => false
  | .mixed =>
      match v with
      | .vadd a b => decide ((a : Int) + b = target)
      | .vsub a b => decide ((a : Int) - b = target)
      | _ => false

/-- **C2.** The correctness test applied when the Muncher eats a cell
agrees with direct arithmetic for every rule and every cell value:
multiples — numeric, `target > 0` and `target ∣ value`; factors —
numeric, `target > 0`, `value > 0` and `value ∣ target`; primes — numeric
and (mathematically) prime, values below 2 never; addition — an `a+b`
expression with `a + b = target`; subtraction — an `a-b` expression with
`a - b = target`; mixed — evaluated by whichever operator is present. -/
theorem eat_correctness_test_agrees_with_arithmetic
    (v : Value) (rule : GameRule) (target : Int) :
    isCorrect v rule target = isCorrectSpec v rule target := by
  cases rule <;> cases v <;>
    simp only [isCorrect, isCorrectSpec] <;>
    try rfl
  case multiples.num n =>
    by_cases ht : 0 < target
    · have hmod : (n % target = 0) ↔ target ∣ n :=
        ⟨Int.dvd_of_emod_eq_zero, Int.emod_eq_zero_of_dvd⟩
      rw [show ((n % target == 0) : Bool) = decide (n % target = 0) from rfl]
      simp [ht, hmod]
    · simp [ht]
  case factors.num n =>
    by_cases ht : 0 < target
    · by_cases hn : 0 < n
      · have hmod : (target % n = 0) ↔ n ∣ target :=
          ⟨Int.dvd_of_emod_eq_zero, Int.emod_eq_zero_of_dvd⟩
        rw [show ((target % n == 0) : Bool) = decide (target % n = 0) from rfl]
        simp [ht, hn, hmod]
      · simp [ht, hn]
    · simp [ht]
  case primes.num n =>
    by_cases hp : Nat.Prime n.toNat
    · have h1 : isPrime n = true := (isPrime_iff n).mpr hp
      have hnn : 0 ≤ n := by
        by_contra hneg
        push_neg at hneg
        rw [Int.toNat_of_nonpos (le_of_lt hneg)] at hp
        exact Nat.not_prime_zero hp
      simp [h1, hp, hnn]
    · have h1 : isPrime n = false := by
        by_contra hne
        rw [Bool.not_eq_false] at hne
        exact hp ((isPrime_iff n).mp hne)
      simp [h1, hp]


/-! ## Value pool generation (gameUtils.ts) -/

/-- `generateCorrectValues` from gameUtils.ts: all candidate values
satisfying the rule, in source order. -/
def generateCorrectValues (rule : GameRule) (target : Int) : List Value :=
  match rule with
  | .multiples =>
      if target > 0 then
        ((List.range 25).map (fun (i : Nat) => target * ((i : Int) + 1))).filterMap
          (fun m => if 2 ≤ m ∧ m ≤ 50 then some (.num m) else none)
      else []
  | .factors =>
      if target > 0 then
        ((List.range target.toNat).map (fun (i : Nat) => (i : Int) + 1)).filterMap
          (fun i => if target % i == 0 then some (.num i) else none)
      else []
  | .primes =>
      ((List.range 49).map (fun (i : Nat) => (i : Int) + 2)).filterMap
        (fun i => if isPrime i then some (.num i) else none)
  | .addition =>
      if 0 ≤ target then
        (List.range (target.toNat + 1)).flatMap (fun a =>
          let b : Int := target - (a : Int)
          if 0 ≤ b ∧ b ≤ 20 then
            (.vadd a b.toNat) ::
              (if (a : Int) ≠ b then [.vadd b.toNat a] else [])
          else [])
      else []
  | .subtraction =>
      (List.range 21).flatMap (fun b =>
        let a : Int := (b : Int) + target
        if (b : Int) ≤ a ∧ a ≤ 30 then [.vsub a.toNat b] else [])
  | .mixed => []

/-- The local `isCorrectValue` helper inside `generateIncorrectValues`
(gameUtils.ts): same switch as the eat-time test but with no `mixed`
case (the `default` branch returns `false`). -/
def isCorrectValue (rule : GameRule) (target : Int) (v : Value) : Bool :=
  match rule with
  | .multiples =>
      match v with
      | .num n => decide (target > 0) && (n % target == 0)
      | _ => false
  | .factors =>
      match v with
      | .num n => decide (target > 0) && decide (n > 0) && (target % n == 0)
      | _ => false
  | .primes =>
      match v with
      | .num n => isPrime n
      | _ => false
  | .addition =>
      match v with
      | .vadd a b => (a : Int) + b == target
      | _ => false
  | .subtraction =>
      match v with
      | .vsub a b => (a : Int) - b == target
      | _ => false
  | .mixed => false

/-- One candidate draw of the incorrect-value loop, per rule (the
`switch` inside the `while`). -/
def drawIncorrect (rule : GameRule) (g : Rng) : Value × Rng :=
  match rule with
  | .multiples | .factors | .primes =>
      let (n, g') := randInt 2 50 g
      (.num n, g')
  | .addition =>
      let (a, g1) := randInt 0 20 g
      let (b, g2) := randInt 0 20 g1
      (.vadd a.toNat b.toNat, g2)
  | .subtraction =>
      let (x, g1) := randInt 0 30 g
      let (y, g2) := randInt 0 (min x 15) g1
      (.vsub x.toNat y.toNat, g2)
  | .mixed =>
      let (n, g') := randInt 2 50 g
      (.num n, g')

/-- The main rejection loop of `generateIncorrectValues`:
`while (values.length < 100 && attempts < 1000)`, pushing a candidate
only if it is not correct and not already present. -/
def genIncorrectLoop (rule : GameRule) (target : Int) :
    Nat → List Value → Rng → List Value × Rng
  | 0, values, g => (values, g)
  | att + 1, values, g =>
      if values.length < 100 then
        let (v, g') := drawIncorrect rule g
        let values' :=
          if !(isCorrectValue rule target v) && !(values.contains v) then
            values ++ [v]
          else values
        genIncorrectLoop rule target att values' g'
      else (values, g)

/-- The secondary fallback loop: up to 100 more attempts drawing plain
numbers `randInt(2,50)`. -/
def genIncorrectFallbackLoop (rule : GameRule) (target : Int) :
    Nat → List Value → Rng → List Value × Rng
  | 0, values, g => (values, g)
  | att + 1, values, g =>
      if values.length < 100 then
        let (n, g') := randInt 2 50 g
        let values' :=
          if !(isCorrectValue rule target (.num n)) &&
              !(values.contains (.num n)) then
            values ++ [Value.num n]
          else values
        genIncorrectFallbackLoop rule target att values' g'
      else (values, g)

/-- The last-resort fill: `for (let i = 51; i <= 100 && length < 50; i++)`
pushing `i` unchecked (no correctness test!) if not already present. -/
def guaranteedFill (values : List Value) : List Value :=
  (List.range 50).foldl
    (fun vs k =>
      let i : Int := 51 + (k : Int)
      if vs.length < 50 ∧ ¬ vs.contains (.num i) then vs ++ [Value.num i]
      else vs)
    values

/-- `generateIncorrectValues` from gameUtils.ts. -/
def generateIncorrectValues (rule : GameRule) (target : Int) (g : Rng) :
    List Value × Rng :=
  let (vs1, g1) := genIncorrectLoop rule target 1000 [] g
  let (vs2, g2) := genIncorrectFallbackLoop rule target 100 vs1 g1
  let vs3 := if vs2.length < 20 then guaranteedFill vs2 else vs2
  (vs3, g2)

/-- `getAlternativeTarget` from gameUtils.ts. -/
def getAlternativeTarget (rule : GameRule) (g : Rng) : Int × Rng :=
  match rule with
  | .multiples | .factors => randInt 6 12 g
  | .primes => (0, g)
  | .addition => randInt 8 15 g
  | .subtraction => randInt 3 10 g
  | .mixed => randInt 2 12 g


/-! ## C5: the incorrect pool -/

theorem isCorrectValue_num (rule : GameRule) (t n : Int) :
    isCorrectValue rule t (.num n) = isCorrect (.num n) rule t := by
  cases rule <;> rfl

theorem isCorrectValue_draw (rule : GameRule) (t : Int) (g : Rng) :
    isCorrectValue rule t (drawIncorrect rule g).1 =
      isCorrect (drawIncorrect rule g).1 rule t := by
  cases rule <;> rfl

theorem genIncorrectLoop_mem (rule : GameRule) (target : Int)
    (P : Value → Prop)
    (hdraw : ∀ g, isCorrectValue rule target (drawIncorrect rule g).1 = false →
      P (drawIncorrect rule g).1) :
    ∀ (att : Nat) (values : List Value) (g : Rng) (v : Value),
      v ∈ (genIncorrectLoop rule target att values g).1 →
      v ∈ values ∨ P v := by
  intro att
  induction att with
  | zero => intro values g v hv; exact Or.inl hv
  | succ a ih =>
    intro values g v hv
    rw [genIncorrectLoop] at hv
    by_cases hlen : values.length < 100
    · rw [if_pos hlen] at hv
      simp only [] at hv
      by_cases hpush :
          (!(isCorrectValue rule target (drawIncorrect rule g).1) &&
            !(values.contains (drawIncorrect rule g).1)) = true
      · rw [if_pos hpush] at hv
        rcases ih _ _ v hv with h | h
        · rcases List.mem_append.mp h with h2 | h2
          · exact Or.inl h2
          · right
            have hval : v = (drawIncorrect rule g).1 := by
              simpa using h2
            subst hval
            simp only [Bool.and_eq_true, Bool.not_eq_true'] at hpush
            exact hdraw g hpush.1
        · exact Or.inr h
      · rw [if_neg hpush] at hv
        exact ih _ _ v hv
    · rw [if_neg hlen] at hv
      exact Or.inl hv

theorem genIncorrectFallbackLoop_mem (rule : GameRule) (target : Int)
    (P : Value → Prop)
    (hnum : ∀ n : Int, isCorrectValue rule target (.num n) = false →
      P (.num n)) :
    ∀ (att : Nat) (values : List Value) (g : Rng) (v : Value),
      v ∈ (genIncorrectFallbackLoop rule target att values g).1 →
      v ∈ values ∨ P v := by
  intro att
  induction att with
  | zero => intro values g v hv; exact Or.inl hv
  | succ a ih =>
    intro values g v hv
    rw [genIncorrectFallbackLoop] at hv
    by_cases hlen : values.length < 100
    · rw [if_pos hlen] at hv
      simp only [] at hv
      by_cases hpush :
          (!(isCorrectValue rule target (.num (randInt 2 50 g).1)) &&
            !(values.contains (.num (randInt 2 50 g).1))) = true
      · rw [if_pos hpush] at hv
        rcases ih _ _ v hv with h | h
        · rcases List.mem_append.mp h with h2 | h2
          · exact Or.inl h2
          · right
            have hval : v = .num (randInt 2 50 g).1 := by simpa using h2
            subst hval
            simp only [Bool.and_eq_true, Bool.not_eq_true'] at hpush
            exact hnum _ hpush.1
        · exact Or.inr h
      · rw [if_neg hpush] at hv
        exact ih _ _ v hv
    · rw [if_neg hlen] at hv
      exact Or.inl hv

theorem guaranteedFill_mem (values : List Value) (v : Value)
    (hv : v ∈ guaranteedFill values) :
    v ∈ values ∨ ∃ n : Int, v = .num n ∧ 51 ≤ n ∧ n ≤ 100 := by
  have H : ∀ (l : List Nat) (acc : List Value),
      v ∈ l.foldl (fun (vs : List Value) (k : Nat) =>
        let i : Int := 51 + (k : Int)
        if vs.length < 50 ∧ ¬ vs.contains (.num i) then vs ++ [Value.num i]
        else vs) acc →
      v ∈ acc ∨ ∃ k ∈ l, v = Value.num (51 + (k : Int)) := by
    intro l
    induction l with
    | nil => intro acc h; exact Or.inl h
    | cons k l ihl =>
      intro acc h
      rw [List.foldl_cons] at h
      rcases ihl _ h with h2 | h2
      · simp only [] at h2
        by_cases hc : acc.length < 50 ∧ ¬ acc.contains (.num (51 + (k : Int)))
        · rw [if_pos hc] at h2
          rcases List.mem_append.mp h2 with h3 | h3
          · exact Or.inl h3
          · right
            exact ⟨k, List.mem_cons_self k l, by simpa using h3⟩
        · rw [if_neg hc] at h2
          exact Or.inl h2
      · rcases h2 with ⟨k2, hk2, hvk⟩
        exact Or.inr ⟨k2, List.mem_cons_of_mem _ hk2, hvk⟩
  rcases H (List.range 50) values hv with h | h
  · exact Or.inl h
  · rcases h with ⟨k, hk, hvk⟩
    right
    refine ⟨51 + (k : Int), hvk, by omega, ?_⟩
    have : k < 50 := List.mem_range.mp hk
    omega

theorem generateIncorrectValues_correct_mem_fill
    (rule : GameRule) (target : Int) (g : Rng) (v : Value)
    (hv : v ∈ (generateIncorrectValues rule target g).1)
    (hc : isCorrect v rule target = true) :
    ∃ n : Int, v = .num n ∧ 51 ≤ n ∧ n ≤ 100 := by
  unfold generateIncorrectValues at hv
  simp only [] at hv
  set st1 := genIncorrectLoop rule target 1000 [] g with hst1
  set st2 := genIncorrectFallbackLoop rule target 100 st1.1 st1.2 with hst2
  have hfail : ∀ w, w ∈ st2.1 → isCorrect w rule target = false := by
    intro w hw
    rcases genIncorrectFallbackLoop_mem rule target
        (fun x => isCorrect x rule target = false)
        (fun n h => by rw [isCorrectValue_num] at h; exact h)
        100 st1.1 st1.2 w hw with h | h
    · rcases genIncorrectLoop_mem rule target
          (fun x => isCorrect x rule target = false)
          (fun g2 h => by rw [isCorrectValue_draw] at h; exact h)
          1000 [] g w h with h2 | h2
      · exact absurd h2 (List.not_mem_nil w)
      · exact h2
    · exact h
  by_cases hlen : st2.1.length < 20
  · rw [if_pos hlen] at hv
    rcases guaranteedFill_mem _ _ hv with h | h
    · rw [hfail v h] at hc
      exact absurd hc (by simp)
    · exact h
  · rw [if_neg hlen] at hv
    rw [hfail v hv] at hc
    exact absurd hc (by simp)

/-- **C5 (amended).** Every value of the incorrect pool fails the
correctness test, except possibly integers in `[51, 100]` added by the
unchecked last-resort fill (which runs only when fewer than 20 genuinely
incorrect values were found): any pool member that satisfies
`isCorrect` is a plain number between 51 and 100. -/
theorem incorrect_pool_correct_members_are_fill_range
    (rule : GameRule) (target : Int) (g : Rng) (v : Value)
    (hv : v ∈ (generateIncorrectValues rule target g).1)
    (hc : isCorrect v rule target = true) :
    ∃ n : Int, v = .num n ∧ 51 ≤ n ∧ n ≤ 100 :=
  generateIncorrectValues_correct_mem_fill rule target g v hv hc

/-- The identity raw-draw stream, used for concrete evaluations. -/
def streamId : Rng := ⟨fun n => n, 0⟩

set_option maxRecDepth 200000 in
/-- **C5 (counterexample).** For `multiples` of 1 the incorrect pool
consists entirely of values that satisfy the rule: 51 is in the pool
returned by `generateIncorrectValues` yet `isCorrect 51` holds (every
integer is a multiple of 1), refuting the claim that the pool never
contains a value satisfying the active rule. -/
theorem incorrect_pool_contains_correct_value :
    Value.num 51 ∈ (generateIncorrectValues .multiples 1 streamId).1 ∧
      isCorrect (Value.num 51) .multiples 1 = true := by
  constructor
  · decide
  · decide

set_option maxRecDepth 200000 in
/-- Witness for the amended C5 theorem at a concrete input. -/
theorem incorrect_pool_correct_members_are_fill_range_witness :
    Value.num 52 ∈ (generateIncorrectValues .multiples 1 streamId).1 ∧
      isCorrect (Value.num 52) .multiples 1 = true ∧
      ∃ n : Int, Value.num 52 = .num n ∧ 51 ≤ n ∧ n ≤ 100 :=
  ⟨by decide, by decide,
    incorrect_pool_correct_members_are_fill_range .multiples 1 streamId
      (Value.num 52) (by decide) (by decide)⟩


/-! ## Grid generation (gameUtils.ts `generateGrid`) -/

/-- Troggle behaviour kinds (types.ts `EnemyType`). -/
inductive EnemyType where
  | standard | speed | smart | blocker | hunter
  deriving DecidableEq, Repr

/-- A grid cell (types.ts `Cell`); the optional JS fields default to
absent/false. -/
structure Cell where
  value : Value
  isTarget : Bool
  hasMuncher : Bool
  hasTroggle : Bool
  troggleType : Option EnemyType := none
  revealed : Bool := false
  munchedCorrect : Bool := false
  deriving DecidableEq, Repr

/-- A position on the grid (types.ts `Position`). -/
structure Position where
  row : Int
  col : Int
  deriving DecidableEq, Repr

/-- A grid is a row-major nested list of cells (`Cell[][]`). -/
abbrev Grid := List (List Cell)

/-- One row of the hand-rolled fallback grid (the `attempts > 10`,
`rule = primes` branch): each cell gets a random value in `[2,50]` and is
a target if the value is prime and fewer than 5 cells already pushed in
this row are targets. -/
def fallbackRow : Nat → List Cell → Rng → List Cell × Rng
  | 0, acc, g => (acc, g)
  | c + 1, acc, g =>
      let vg := randInt 2 50 g
      let isT := isPrime vg.1 &&
        decide ((acc.filter (fun cell => cell.isTarget)).length < 5)
      fallbackRow c (acc ++ [⟨.num vg.1, isT, false, false, none, false, false⟩]) vg.2

/-- The hand-rolled fallback grid (`console.warn('Grid generation
failed...')` branch). -/
def fallbackGrid (rows cols : Nat) (g : Rng) : Grid × Rng :=
  (List.range rows).foldl
    (fun (acc : List (List Cell) × Rng) _ =>
      let row := fallbackRow cols [] acc.2
      (acc.1 ++ [row.1], row.2))
    ([], g)

/-- The distinct-position sampling loop of `generateGrid` (step 3):
`while (correctPositions.size < numCorrectAnswers) add(randInt(0,
totalCells - 1))`.  The loop is unbounded in the source; here it carries
fuel and returns `none` on a stream where it would not terminate. -/
def pickPositions (num total : Nat) : Nat → Finset Int → Rng → Option (Finset Int × Rng)
  | 0, acc, g => if num ≤ acc.card then some (acc, g) else none
  | f + 1, acc, g =>
      if acc.card < num then
        let pg := randInt 0 ((total : Int) - 1) g
        pickPositions num total f (insert pg.1 acc) pg.2
      else some (acc, g)

/-- Build one row of the grid (step 5): a cell at flat index in the
chosen position set draws a random member of the correct pool and is
marked a target; any other cell draws from the incorrect pool. -/
def buildRow (pos : Finset Int) (cv iv : List Value) :
    Nat → Nat → Rng → List Cell × Rng
  | 0, _, g => ([], g)
  | c + 1, flat, g =>
      if (flat : Int) ∈ pos then
        let ig := randInt 0 ((cv.length : Int) - 1) g
        let cell : Cell := ⟨cv.getD ig.1.toNat (.num 0), true, false, false, none, false, false⟩
        let rest := buildRow pos cv iv c (flat + 1) ig.2
        (cell :: rest.1, rest.2)
      else
        let ig := randInt 0 ((iv.length : Int) - 1) g
        let cell : Cell := ⟨iv.getD ig.1.toNat (.num 0), false, false, false, none, false, false⟩
        let rest := buildRow pos cv iv c (flat + 1) ig.2
        (cell :: rest.1, rest.2)

/-- Build all rows of the grid, threading the flat index row by row. -/
def buildRows (pos : Finset Int) (cv iv : List Value) :
    Nat → Nat → Nat → Rng → List (List Cell) × Rng
  | 0, _, _, g => ([], g)
  | r + 1, cols, flat, g =>
      let row := buildRow pos cv iv cols flat g
      let rest := buildRows pos cv iv r cols (flat + cols) row.2
      (row.1 :: rest.1, rest.2)

/-- The `shouldBeTarget` switch of the final validation pass in
`generateGrid`: same tests as the eat-time check, but with no `mixed`
case, so `mixed` always yields `false`. -/
def validateCellValue (rule : GameRule) (target : Int) (v : Value) : Bool :=
  match rule with
  | .multiples =>
      match v with
      | .num n => decide (target > 0) && (n % target == 0)
      | _ => false
  | .factors =>
      match v with
      | .num n => decide (target > 0) && decide (n > 0) && (target % n == 0)
      | _ => false
  | .primes =>
      match v with
      | .num n => isPrime n
      | _ => false
  | .addition =>
      match v with
      | .vadd a b => (a : Int) + b == target
      | _ => false
  | .subtraction =>
      match v with
      | .vsub a b => (a : Int) - b == target
      | _ => false
  | .mixed => false

/-- The final validation pass: every cell's `isTarget` is re-derived
from its value (`if (cell.isTarget !== shouldBeTarget) cell.isTarget =
shouldBeTarget`). -/
def validatePass (rule : GameRule) (target : Int) (grid : List (List Cell)) :
    List (List Cell) :=
  grid.map (fun row => row.map (fun cell =>
    { cell with isTarget := validateCellValue rule target cell.value }))

/-- `generateGrid` from gameUtils.ts.  `fuel` bounds the retry recursion
(the source's recursion depth is bounded by 12, so `fuel = 12` is always
enough); `posFuel` is the fuel of the position-sampling loop. -/
def generateGrid (rows cols : Nat) (rule : GameRule) (target : Int)
    (attempts : Nat) : Nat → Nat → Rng → Option (Grid × Rng)
  | 0, _, _ => none
  | fuel + 1, posFuel, g =>
      let totalCells := rows * cols
      if attempts > 10 then
        if rule ≠ .primes then
          generateGrid rows cols .primes 0 0 fuel posFuel g
        else
          some (fallbackGrid rows cols g)
      else
        let correctValues := generateCorrectValues rule target
        if correctValues.length < 3 then
          let tg := getAlternativeTarget rule g
          generateGrid rows cols rule tg.1 (attempts + 1) fuel posFuel tg.2
        else
          let maxCorrect : Int :=
            min 8 (min (correctValues.length : Int) ((totalCells : Int) - 2))
          let rg := randInt 3 maxCorrect g
          let numCorrectAnswers : Int := max 3 rg.1
          match pickPositions numCorrectAnswers.toNat totalCells posFuel ∅ rg.2 with
          | none => none
          | some (positions, g2) =>
              let ig := generateIncorrectValues rule target g2
              let gr := buildRows positions correctValues ig.1 rows cols 0 ig.2
              some (validatePass rule target gr.1, gr.2)

/-- Number of target-flagged cells in a grid. -/
def targetCount (grid : Grid) : Nat :=
  ((grid : List (List Cell)).map
    (fun row => (row.filter (fun c => c.isTarget)).length)).sum
/-! ## C1: grid generation invariants -/

theorem validateCellValue_eq_isCorrect (rule : GameRule) (t : Int) (v : Value)
    (hm : rule ≠ .mixed) :
    validateCellValue rule t v = isCorrect v rule t := by
  cases rule <;> first | rfl | exact absurd rfl hm

theorem generateCorrectValues_correct (rule : GameRule) (t : Int) :
    ∀ v ∈ generateCorrectValues rule t, isCorrect v rule t = true := by
  intro v hv
  cases rule with
  | multiples =>
    rw [generateCorrectValues] at hv
    by_cases ht : t > 0
    · rw [if_pos ht] at hv
      rcases List.mem_filterMap.mp hv with ⟨m, hm, hcond⟩
      rcases List.mem_map.mp hm with ⟨i, -, rfl⟩
      by_cases hb : 2 ≤ t * ((i : Int) + 1) ∧ t * ((i : Int) + 1) ≤ 50
      · rw [if_pos hb] at hcond
        cases hcond
        simp only [isCorrect]
        have hmod : t * ((i : Int) + 1) % t = 0 := by
          rw [Int.mul_comm]
          exact Int.mul_emod_left _ _
        simp [ht, hmod]
      · rw [if_neg hb] at hcond; cases hcond
    · rw [if_neg ht] at hv; cases hv
  | factors =>
    rw [generateCorrectValues] at hv
    by_cases ht : t > 0
    · rw [if_pos ht] at hv
      rcases List.mem_filterMap.mp hv with ⟨m, hm, hcond⟩
      rcases List.mem_map.mp hm with ⟨i, -, rfl⟩
      by_cases hb : (t % ((i : Int) + 1) == 0) = true
      · rw [if_pos hb] at hcond
        cases hcond
        have hpos : (0 : Int) < (i : Int) + 1 := by exact_mod_cast Nat.succ_pos i
        simp only [isCorrect]
        simp [ht, hpos]
        simpa using hb
      · rw [if_neg hb] at hcond; cases hcond
    · rw [if_neg ht] at hv; cases hv
  | primes =>
    rw [generateCorrectValues] at hv
    rcases List.mem_filterMap.mp hv with ⟨m, hm, hcond⟩
    rcases List.mem_map.mp hm with ⟨i, -, rfl⟩
    by_cases hb : isPrime ((i : Int) + 2) = true
    · rw [if_pos hb] at hcond
      cases hcond
      simpa [isCorrect] using hb
    · rw [if_neg hb] at hcond; cases hcond
  | addition =>
    rw [generateCorrectValues] at hv
    by_cases ht : 0 ≤ t
    · rw [if_pos ht] at hv
      rcases List.mem_flatMap.mp hv with ⟨a, ha, hbody⟩
      simp only [] at hbody
      by_cases hb : 0 ≤ t - (a : Int) ∧ t - (a : Int) ≤ 20
      · rw [if_pos hb] at hbody
        rcases List.mem_cons.mp hbody with h1 | h1
        · subst h1
          simp only [isCorrect, beq_iff_eq]
          omega
        · by_cases hne : (a : Int) ≠ t - (a : Int)
          · rw [if_pos hne] at h1
            rcases List.mem_singleton.mp h1 with rfl
            simp only [isCorrect, beq_iff_eq]
            omega
          · rw [if_neg hne] at h1; cases h1
      · rw [if_neg hb] at hbody; cases hbody
    · rw [if_neg ht] at hv; cases hv
  | subtraction =>
    rw [generateCorrectValues] at hv
    rcases List.mem_flatMap.mp hv with ⟨b, hb, hbody⟩
    simp only [] at hbody
    by_cases hc : (b : Int) ≤ (b : Int) + t ∧ (b : Int) + t ≤ 30
    · rw [if_pos hc] at hbody
      rcases List.mem_singleton.mp hbody with rfl
      simp only [isCorrect, beq_iff_eq]
      omega
    · rw [if_neg hc] at hbody; cases hbody
  | mixed =>
    rw [generateCorrectValues] at hv
    exact absurd hv (List.not_mem_nil v)


theorem pickPositions_spec (num total : Nat) (htot : 1 ≤ total) :
    ∀ (f : Nat) (acc : Finset Int) (g : Rng) (P : Finset Int) (g2 : Rng),
      pickPositions num total f acc g = some (P, g2) →
      acc.card ≤ num →
      (∀ x ∈ acc, 0 ≤ x ∧ x < (total : Int)) →
      P.card = num ∧ ∀ x ∈ P, 0 ≤ x ∧ x < (total : Int) := by
  intro f
  induction f with
  | zero =>
    intro acc g P g2 hsome hcard hmem
    rw [pickPositions] at hsome
    by_cases h : num ≤ acc.card
    · rw [if_pos h] at hsome
      cases hsome
      exact ⟨le_antisymm hcard h, hmem⟩
    · rw [if_neg h] at hsome
      cases hsome
  | succ f ih =>
    intro acc g P g2 hsome hcard hmem
    rw [pickPositions] at hsome
    by_cases h : acc.card < num
    · rw [if_pos h] at hsome
      have hrange := @randInt_le 0 ((total : Int) - 1) (by omega) g
      refine ih _ _ _ _ hsome ?_ ?_
      · calc (insert (randInt 0 ((total : Int) - 1) g).1 acc).card
            ≤ acc.card + 1 := Finset.card_insert_le _ _
          _ ≤ num := by omega
      · intro x hx
        rcases Finset.mem_insert.mp hx with rfl | hx2
        · omega
        · exact hmem x hx2
    · rw [if_neg h] at hsome
      cases hsome
      exact ⟨by omega, hmem⟩

theorem randInt_getD_mem (l : List Value) (hne : l ≠ []) (g : Rng) :
    l.getD (randInt 0 ((l.length : Int) - 1) g).1.toNat (.num 0) ∈ l := by
  have hlen : 1 ≤ l.length := List.length_pos.mpr hne
  have hrange := @randInt_le 0 ((l.length : Int) - 1) (by omega) g
  have hidx : (randInt 0 ((l.length : Int) - 1) g).1.toNat < l.length := by omega
  rw [List.getD_eq_getElem?_getD, List.getElem?_eq_getElem hidx]
  exact List.getElem_mem hidx

/-- Number of flat indices in `[flat, flat + c)` that lie in `pos`. -/
def posCount (pos : Finset Int) : Nat → Nat → Nat
  | 0, _ => 0
  | c + 1, flat => (if (flat : Int) ∈ pos then 1 else 0) + posCount pos c (flat + 1)

theorem posCount_eq_card_filter (pos : Finset Int) :
    ∀ (c flat : Nat),
      posCount pos c flat =
        (pos.filter (fun x => (flat : Int) ≤ x ∧ x < (flat : Int) + (c : Int))).card := by
  intro c
  induction c with
  | zero =>
    intro flat
    rw [posCount]
    symm
    rw [Finset.card_eq_zero]
    apply Finset.filter_false_of_mem
    intro x _
    push_cast
    omega
  | succ c ihc =>
    intro flat
    rw [posCount, ihc (flat + 1)]
    have hdisj : Disjoint (pos.filter (fun x => x = (flat : Int)))
        (pos.filter (fun x => ((flat + 1 : Nat) : Int) ≤ x ∧
          x < ((flat + 1 : Nat) : Int) + (c : Int))) := by
      rw [Finset.disjoint_filter]
      intro x _ hx1 hx2
      push_cast at hx2
      omega
    have hsplit :
        pos.filter (fun x => (flat : Int) ≤ x ∧
            x < (flat : Int) + ((c + 1 : Nat) : Int)) =
          pos.filter (fun x => x = (flat : Int)) ∪
            pos.filter (fun x => ((flat + 1 : Nat) : Int) ≤ x ∧
              x < ((flat + 1 : Nat) : Int) + (c : Int)) := by
      rw [← Finset.filter_or]
      apply Finset.filter_congr
      intro x _
      constructor
      · intro hx
        push_cast at hx ⊢
        omega
      · intro hx
        push_cast at hx ⊢
        omega
    rw [hsplit, Finset.card_union_of_disjoint hdisj]
    congr 1
    rw [Finset.filter_eq']
    by_cases hf : (flat : Int) ∈ pos
    · rw [if_pos hf, if_pos hf]
      simp
    · rw [if_neg hf, if_neg hf]
      simp

theorem posCount_add (pos : Finset Int) :
    ∀ (c1 c2 flat : Nat),
      posCount pos (c1 + c2) flat =
        posCount pos c1 flat + posCount pos c2 (flat + c1) := by
  intro c1
  induction c1 with
  | zero =>
    intro c2 flat
    simp [posCount]
  | succ c1 ih =>
    intro c2 flat
    have h1 : c1 + 1 + c2 = (c1 + c2) + 1 := by omega
    rw [h1, posCount, posCount, ih c2 (flat + 1)]
    have h2 : flat + 1 + c1 = flat + (c1 + 1) := by omega
    rw [h2]
    omega

/-- Number of cells in a list whose value satisfies the rule. -/
def correctCountRow (rule : GameRule) (t : Int) (cells : List Cell) : Nat :=
  cells.countP (fun cell => isCorrect cell.value rule t)

theorem buildRow_correctCount (pos : Finset Int) (cv iv : List Value)
    (rule : GameRule) (t : Int)
    (hall : ∀ v ∈ cv, isCorrect v rule t = true)
    (hclean : ∀ v ∈ iv, isCorrect v rule t = false)
    (hcvne : cv ≠ []) (hivne : iv ≠ []) :
    ∀ (c flat : Nat) (g : Rng),
      correctCountRow rule t (buildRow pos cv iv c flat g).1 = posCount pos c flat := by
  intro c
  induction c with
  | zero =>
    intro flat g
    rw [buildRow, posCount]
    rfl
  | succ c ih =>
    intro flat g
    rw [buildRow, posCount]
    by_cases hmem : (flat : Int) ∈ pos
    · rw [if_pos hmem]
      simp only [correctCountRow, List.countP_cons] at ih ⊢
      have hval := hall _ (randInt_getD_mem cv hcvne g)
      rw [ih, if_pos hval, if_pos hmem]
      omega
    · rw [if_neg hmem]
      simp only [correctCountRow, List.countP_cons] at ih ⊢
      have hval := hclean _ (randInt_getD_mem iv hivne g)
      rw [ih, if_neg (by rw [hval]; simp), if_neg hmem]
      omega

/-- Number of correct-valued cells in a whole grid. -/
def correctCountGrid (rule : GameRule) (t : Int) (grid : List (List Cell)) : Nat :=
  (grid.map (fun row => correctCountRow rule t row)).sum

theorem buildRows_correctCount (pos : Finset Int) (cv iv : List Value)
    (rule : GameRule) (t : Int)
    (hall : ∀ v ∈ cv, isCorrect v rule t = true)
    (hclean : ∀ v ∈ iv, isCorrect v rule t = false)
    (hcvne : cv ≠ []) (hivne : iv ≠ []) :
    ∀ (r cols flat : Nat) (g : Rng),
      correctCountGrid rule t (buildRows pos cv iv r cols flat g).1 =
        posCount pos (r * cols) flat := by
  intro r
  induction r with
  | zero =>
    intro cols flat g
    rw [buildRows]
    simp [correctCountGrid, posCount]
  | succ r ih =>
    intro cols flat g
    rw [buildRows]
    simp only [correctCountGrid, List.map_cons, List.sum_cons]
    have h1 : (r + 1) * cols = cols + r * cols := by ring
    rw [h1, posCount_add]
    rw [buildRow_correctCount pos cv iv rule t hall hclean hcvne hivne cols flat g]
    have := ih cols (flat + cols) (buildRow pos cv iv cols flat g).2
    simp only [correctCountGrid] at this
    rw [this]

theorem targetCount_validatePass (rule : GameRule) (t : Int)
    (grid : List (List Cell)) (hm : rule ≠ .mixed) :
    targetCount (validatePass rule t grid) = correctCountGrid rule t grid := by
  unfold targetCount validatePass correctCountGrid correctCountRow
  rw [List.map_map]
  congr 1
  apply List.map_congr_left
  intro row _
  simp only [Function.comp]
  rw [List.filter_map, List.length_map, List.countP_eq_length_filter]
  congr 1
  apply List.filter_congr
  intro cell _
  simp only [Function.comp]
  rw [validateCellValue_eq_isCorrect rule t cell.value hm]

theorem validatePass_consistent (rule : GameRule) (t : Int)
    (grid : List (List Cell)) (hm : rule ≠ .mixed) :
    ∀ row ∈ validatePass rule t grid, ∀ cell ∈ row,
      cell.isTarget = isCorrect cell.value rule t := by
  intro row hrow cell hcell
  rcases List.mem_map.mp hrow with ⟨row0, -, rfl⟩
  rcases List.mem_map.mp hcell with ⟨cell0, -, rfl⟩
  exact validateCellValue_eq_isCorrect rule t cell0.value hm

theorem guaranteedFill_length_le (values : List Value) :
    values.length ≤ (guaranteedFill values).length := by
  unfold guaranteedFill
  have H : ∀ (l : List Nat) (acc : List Value),
      acc.length ≤ (l.foldl (fun (vs : List Value) (k : Nat) =>
        let i : Int := 51 + (k : Int)
        if vs.length < 50 ∧ ¬ vs.contains (.num i) then vs ++ [Value.num i]
        else vs) acc).length := by
    intro l
    induction l with
    | nil => intro acc; simp
    | cons k l ihl =>
      intro acc
      rw [List.foldl_cons]
      refine le_trans ?_ (ihl _)
      by_cases hc : acc.length < 50 ∧ ¬ acc.contains (.num (51 + (k : Int)))
      · rw [if_pos hc]; simp
      · rw [if_neg hc]
  exact H (List.range 50) values

set_option maxRecDepth 400000 in
theorem generateIncorrectValues_ne_nil (rule : GameRule) (t : Int) (g : Rng) :
    (generateIncorrectValues rule t g).1 ≠ [] := by
  unfold generateIncorrectValues
  simp only []
  set vs2 := (genIncorrectFallbackLoop rule t 100
    (genIncorrectLoop rule t 1000 [] g).1 (genIncorrectLoop rule t 1000 [] g).2).1 with hvs2
  by_cases hlen : vs2.length < 20
  · rw [if_pos hlen]
    rcases List.eq_nil_or_concat vs2 with hnil | ⟨l2, v2, hcons⟩
    · rw [hnil]
      decide
    · intro hempty
      have h1 : vs2.length ≤ (guaranteedFill vs2).length :=
        guaranteedFill_length_le vs2
      rw [hempty] at h1
      simp at h1
      rw [hcons] at h1
      simp at h1
  · rw [if_neg hlen]
    intro hempty
    rw [hempty] at hlen
    simp at hlen


/-- The incorrect pool for the `addition` rule never contains a correct
value: the last-resort fill only adds plain numbers, which can never
satisfy an expression rule. -/
theorem incorrect_pool_clean_addition (t : Int) (g : Rng) (v : Value)
    (hv : v ∈ (generateIncorrectValues .addition t g).1) :
    isCorrect v .addition t = false := by
  by_contra hne
  rw [Bool.not_eq_false] at hne
  rcases generateIncorrectValues_correct_mem_fill .addition t g v hv hne
    with ⟨n, rfl, -, -⟩
  simp [isCorrect] at hne

/-- The claim's conclusions about one generation result: every cell's
target flag equals the live rule evaluation, and the number of target
cells is in `[3, 8]` and at most `rows * cols - 2`. -/
def GridResultOK (rule : GameRule) (target : Int) (rows cols : Nat)
    (res : Option (Grid × Rng)) : Prop :=
  ∀ grid g2, res = some (grid, g2) →
    (∀ row ∈ grid, ∀ cell ∈ row, cell.isTarget = isCorrect cell.value rule target)
    ∧ 3 ≤ targetCount grid ∧ targetCount grid ≤ 8
    ∧ targetCount grid + 2 ≤ rows * cols

/-- **C1 (amended).** For `rows, cols ≥ 3`, a concrete (non-`mixed`)
rule whose correct pool for the requested target has at least 3 members
(so no retry with a substituted target occurs), and a rule/target whose
incorrect pool can never contain a correct value, every grid returned by
`generateGrid` satisfies the target-flag consistency law and has between
3 and 8 target cells, at most `rows * cols - 2`. -/
theorem generateGrid_consistent_and_bounded
    (rows cols : Nat) (rule : GameRule) (target : Int)
    (fuel posFuel : Nat) (g : Rng)
    (hrows : 3 ≤ rows) (hcols : 3 ≤ cols) (hm : rule ≠ .mixed)
    (hcv : 3 ≤ (generateCorrectValues rule target).length)
    (hclean : ∀ (g2 : Rng) (v : Value),
      v ∈ (generateIncorrectValues rule target g2).1 →
      isCorrect v rule target = false) :
    GridResultOK rule target rows cols
      (generateGrid rows cols rule target 0 fuel posFuel g) := by
  intro grid g2 hsome
  cases fuel with
  | zero => rw [generateGrid] at hsome; cases hsome
  | succ fuel =>
    rw [generateGrid] at hsome
    rw [if_neg (show ¬ ((0 : Nat) > 10) by omega)] at hsome
    rw [if_neg (show ¬ (generateCorrectValues rule target).length < 3 by omega)]
      at hsome
    simp only [] at hsome
    have htotal : 9 ≤ rows * cols := by
      calc (9 : Nat) = 3 * 3 := rfl
        _ ≤ rows * cols := Nat.mul_le_mul hrows hcols
    set cv := generateCorrectValues rule target with hcvdef
    set maxCorrect : Int :=
      min 8 (min (cv.length : Int) ((rows * cols : Nat) - 2 : Int)) with hmcdef
    have hmc3 : 3 ≤ maxCorrect := by
      rw [hmcdef]
      have h1 : (3 : Int) ≤ (cv.length : Int) := by exact_mod_cast hcv
      have h2 : (3 : Int) ≤ ((rows * cols : Nat) : Int) - 2 := by
        have : (9 : Int) ≤ ((rows * cols : Nat) : Int) := by exact_mod_cast htotal
        omega
      omega
    set rg := randInt 3 maxCorrect g with hrgdef
    have hrange := @randInt_le 3 maxCorrect (by omega) g
    rw [← hrgdef] at hrange
    set num : Int := max 3 rg.1 with hnumdef
    have hnum : num = rg.1 := by rw [hnumdef]; omega
    have hnum3 : 3 ≤ num := by omega
    have hnum8 : num ≤ 8 := by
      rw [hnum]
      calc rg.1 ≤ maxCorrect := hrange.2
        _ ≤ 8 := by rw [hmcdef]; exact min_le_left _ _
    have hnumT : num + 2 ≤ ((rows * cols : Nat) : Int) := by
      rw [hnum]
      have : rg.1 ≤ ((rows * cols : Nat) : Int) - 2 := by
        calc rg.1 ≤ maxCorrect := hrange.2
          _ ≤ ((rows * cols : Nat) : Int) - 2 := by
              rw [hmcdef]
              exact le_trans (min_le_right _ _) (min_le_right _ _)
      omega
    split at hsome
    · cases hsome
    · rename_i positions gg heq
      cases hsome
      have hspec := pickPositions_spec num.toNat (rows * cols) (by omega)
        posFuel ∅ rg.2 positions gg heq (by simp) (by simp)
      constructor
      · exact validatePass_consistent rule target _ hm
      · have hcount : targetCount (validatePass rule target
            (buildRows positions cv (generateIncorrectValues rule target gg).1
              rows cols 0 (generateIncorrectValues rule target gg).2).1) =
            num.toNat := by
          rw [targetCount_validatePass rule target _ hm]
          rw [buildRows_correctCount positions cv _ rule target
            (generateCorrectValues_correct rule target)
            (fun v hv => hclean gg v hv)
            (by intro hnil; rw [hnil] at hcv; simp at hcv)
            (generateIncorrectValues_ne_nil rule target gg)]
          rw [posCount_eq_card_filter]
          rw [Finset.filter_true_of_mem]
          · exact hspec.1
          · intro x hx
            have := hspec.2 x hx
            push_cast
            omega
        rw [hcount]
        refine ⟨by omega, by omega, ?_⟩
        have h1 : (num.toNat : Int) = num := Int.toNat_of_nonneg (by omega)
        omega

set_option maxRecDepth 400000 in
/-- **C1 (counterexample).** On a 3x3 grid with rule `multiples` and
target number 1 every value of the incorrect pool is itself a multiple
of 1, so after the final validation pass every cell is a target: the
generated grid has 9 target cells, exceeding both the claimed bound of 8
and `rows * cols - 2 = 7`. -/
theorem generateGrid_target_count_exceeds_bounds :
    (generateGrid 3 3 .multiples 1 0 12 30 streamId).map
      (fun p => targetCount p.1) = some 9 := by
  decide

set_option maxRecDepth 400000 in
/-- Witness for the amended C1 theorem at a concrete input. -/
theorem generateGrid_consistent_and_bounded_witness :
    ((3 : Nat) ≤ 3 ∧ GameRule.addition ≠ .mixed ∧
      3 ≤ (generateCorrectValues .addition 10).length) ∧
      GridResultOK .addition 10 3 3
        (generateGrid 3 3 .addition 10 0 12 30 streamId) :=
  ⟨⟨le_refl 3, by decide, by decide⟩,
    generateGrid_consistent_and_bounded 3 3 .addition 10 12 30 streamId
      (by decide) (by decide) (by decide) (by decide)
      (fun g2 v hv => incorrect_pool_clean_addition 10 g2 v hv)⟩


/-! ## Enemy AI (enemyAI.ts) -/

/-- Behaviour profile of a Troggle kind (types.ts `EnemyAI`); the
documentation-only `specialAbility` string is omitted (never read by any
logic). -/
structure EnemyAI where
  type : EnemyType
  speed : ℚ
  intelligence : ℚ
  aggressiveness : ℚ
  coordination : Bool
  deriving DecidableEq, Repr

/-- `createEnemyAI` from enemyAI.ts. -/
def createEnemyAI (t : EnemyType) (difficultyLevel : Nat) : EnemyAI :=
  match t with
  | .standard =>
      ⟨.standard, 1, 1/10 + (difficultyLevel : ℚ) * (1/10),
        2/10 + (difficultyLevel : ℚ) * (5/100), false⟩
  | .speed =>
      ⟨.speed, 15/10 + (difficultyLevel : ℚ) * (2/10), 3/10, 4/10, false⟩
  | .smart =>
      ⟨.smart, 8/10, 7/10 + (difficultyLevel : ℚ) * (1/10), 6/10, false⟩
  | .blocker => ⟨.blocker, 5/10, 4/10, 8/10, true⟩
  | .hunter => ⟨.hunter, 12/10, 8/10, 9/10, true⟩

/-- Runtime state of one Troggle (types.ts `TroggleState`); the wall-clock
`lastMove : Date` field is never read by the movement logic and is
omitted.  An absent (`undefined`) cooldown behaves exactly like 0 in the
only test performed on it (`troggle.cooldown && troggle.cooldown > 0`),
and an absent path like `[]`, so both are modelled by those defaults. -/
structure TroggleState where
  position : Position
  type : EnemyType
  ai : EnemyAI
  target : Option Position := none
  path : List Position := []
  cooldown : Int := 0
  deriving DecidableEq, Repr

/-- `isValidPosition` from enemyAI.ts. -/
def isValidPosition (p : Position) (maxRows maxCols : Nat) : Bool :=
  decide (0 ≤ p.row) && decide (p.row < (maxRows : Int)) &&
    decide (0 ≤ p.col) && decide (p.col < (maxCols : Int))

/-- `moveTowardTarget` from enemyAI.ts: one clamped step toward the
target, restricted to a single axis with a fair random tie-break. -/
def moveTowardTarget (current target : Position) (maxRows maxCols : Nat)
    (g : Rng) : Position × Rng :=
  let row := current.row
  let col := current.col
  let newRow : Int :=
    if target.row > row then min ((maxRows : Int) - 1) (row + 1)
    else if target.row < row then max 0 (row - 1)
    else row
  let newCol : Int :=
    if target.col > col then min ((maxCols : Int) - 1) (col + 1)
    else if target.col < col then max 0 (col - 1)
    else col
  if newRow ≠ row ∧ newCol ≠ col then
    let mg := mathRandom g
    if mg.1 < 1/2 then (⟨newRow, col⟩, mg.2) else (⟨row, newCol⟩, mg.2)
  else (⟨newRow, newCol⟩, g)

/-- `getRandomAdjacentPosition` from enemyAI.ts. -/
def getRandomAdjacentPosition (position : Position) (maxRows maxCols : Nat)
    (g : Rng) : Position × Rng :=
  let row := position.row
  let col := position.col
  let directions : List Position :=
    [⟨-1, 0⟩, ⟨1, 0⟩, ⟨0, -1⟩, ⟨0, 1⟩]
  let validMoves :=
    (directions.map (fun d =>
      (⟨max 0 (min ((maxRows : Int) - 1) (row + d.row)),
        max 0 (min ((maxCols : Int) - 1) (col + d.col))⟩ : Position))).filter
      (fun p => p.row ≠ row ∨ p.col ≠ col)
  if validMoves.isEmpty then (position, g)
  else
    let rg := randInt 0 ((validMoves.length : Int) - 1) g
    (validMoves.getD rg.1.toNat ⟨0, 0⟩, rg.2)

/-- The Finset key of a position (the source uses the string
`"row,col"`; the pair is the same injective key). -/
def posKey (p : Position) : Int × Int := (p.row, p.col)

/-- The BFS loop of `findPath` (enemyAI.ts): a queue of
(position, path-so-far) entries, a visited set keyed by position,
first-match return.  `fuel` bounds the number of loop iterations; the
source loop always terminates within `5 * rows * cols + 1` iterations,
which is the fuel `findPath` supplies. -/
def bfsLoop (endP : Position) (rows cols : Nat) :
    Nat → Finset (Int × Int) → List (Position × List Position) → List Position
  | 0, _, _ => []
  | fuel + 1, visited, queue =>
      match queue with
      | [] => []
      | (pos, path) :: rest =>
          if posKey pos ∈ visited then bfsLoop endP rows cols fuel visited rest
          else
            let visited2 := insert (posKey pos) visited
            if pos.row = endP.row ∧ pos.col = endP.col then path
            else
              let neighbors : List Position :=
                [⟨pos.row - 1, pos.col⟩, ⟨pos.row + 1, pos.col⟩,
                  ⟨pos.row, pos.col - 1⟩, ⟨pos.row, pos.col + 1⟩]
              let newEntries :=
                (neighbors.filter (fun q =>
                  isValidPosition q rows cols && decide (posKey q ∉ visited2))).map
                  (fun q => (q, path ++ [q]))
              bfsLoop endP rows cols fuel visited2 (rest ++ newEntries)

/-- `findPath` from enemyAI.ts: BFS over the 4-connected grid from
`start` to `endP`; obstacles are ignored (the grid only supplies its
dimensions). -/
def findPath (start endP : Position) (grid : Grid) : List Position :=
  let rows := grid.length
  let cols := (grid.headD []).length
  bfsLoop endP rows cols (5 * rows * cols + 1) ∅ [(start, [])]

/-- `findNearestTargets` from enemyAI.ts. -/
def findNearestTargets (grid : Grid) (muncher : Position) (count : Nat) :
    List Position :=
  let targets :=
    (List.range grid.length).flatMap (fun r =>
      (List.range ((grid.getD r []).length)).filterMap (fun c =>
        if ((grid.getD r []).getD c ⟨.num 0, false, false, false, none, false, false⟩).isTarget
        then some (⟨(r : Int), (c : Int)⟩ : Position) else none))
  let sorted := targets.mergeSort (fun a b =>
    (a.row - muncher.row).natAbs + (a.col - muncher.col).natAbs ≤
      (b.row - muncher.row).natAbs + (b.col - muncher.col).natAbs)
  sorted.take count

/-- `getBlockingPosition` from enemyAI.ts: the floor midpoint between
the muncher and a target (the unused third argument is kept for
signature parity). -/
def getBlockingPosition (muncher target : Position) (_current : Position) :
    Option Position :=
  some ⟨(muncher.row + target.row) / 2, (muncher.col + target.col) / 2⟩

/-- `calculateSurroundPosition` from enemyAI.ts: prefer the nearest of
the four cells orthogonally adjacent to the muncher not occupied by
another hunter. -/
def calculateSurroundPosition (muncher current : Position)
    (otherHunters : List TroggleState) : Option Position :=
  let surroundPositions : List Position :=
    [⟨muncher.row - 1, muncher.col⟩, ⟨muncher.row + 1, muncher.col⟩,
      ⟨muncher.row, muncher.col - 1⟩, ⟨muncher.row, muncher.col + 1⟩]
  let occupiedPositions := otherHunters.map (fun h => h.position)
  let availablePositions := surroundPositions.filter (fun p =>
    !(occupiedPositions.any (fun occ =>
      decide (occ.row = p.row) && decide (occ.col = p.col))))
  if availablePositions.isEmpty then none
  else
    (availablePositions.mergeSort (fun a b =>
      (a.row - current.row).natAbs + (a.col - current.col).natAbs ≤
        (b.row - current.row).natAbs + (b.col - current.col).natAbs)).head?


/-! ## Level system data model (types.ts, levels.ts) -/

/-- Level category (types.ts `LevelCategory`). -/
inductive LevelCategory where
  | tutorial | basic | intermediate | advanced | master
  deriving DecidableEq, Repr

/-- Difficulty modifier (types.ts `DifficultyModifier`). -/
inductive DifficultyModifier where
  | extraTime | lessTime | moreTargets | lessTargets
  | fasterEnemies | slowerEnemies | moreEnemies | smarterEnemies
  deriving DecidableEq, Repr

/-- Unlock requirements of a level (types.ts `LevelRequirements`; the
optional fields are never read by the core logic and are omitted). -/
structure LevelRequirements where
  minScore : Int
  previousLevel : Nat
  deriving DecidableEq, Repr

/-- Gameplay parameters of a level (types.ts `LevelParameters`); the
purely informational `numberRange` is omitted (never read). -/
structure LevelParameters where
  gridRows : Nat
  gridCols : Nat
  timeLimit : Int
  rule : GameRule
  targetNumber : Option Int := none
  enemyCount : Nat
  enemyTypes : List EnemyType
  difficultyModifiers : List DifficultyModifier
  targetCount : Option (Nat × Nat) := none
  deriving DecidableEq, Repr

/-- Objective kind. -/
inductive ObjectiveType where
  | primary | bonus
  deriving DecidableEq, Repr

/-- Objective predicate condition. -/
inductive ObjectiveCondition where
  | complete | score | time | accuracy | noMistakes
  deriving DecidableEq, Repr

/-- A level objective (types.ts `LevelObjective`; the description string
is omitted). -/
structure LevelObjective where
  id : String
  type : ObjectiveType
  condition : ObjectiveCondition
  target : Option Int := none
  points : Int
  required : Bool
  deriving DecidableEq, Repr

/-- A level definition (types.ts `Level`; name/description/rewards and
the runtime-UI fields are omitted — never read by the core logic). -/
structure Level where
  id : Nat
  category : LevelCategory
  requirements : LevelRequirements
  parameters : LevelParameters
  objectives : List LevelObjective
  deriving DecidableEq, Repr

/-- The static level catalog (levels.ts `LEVELS`), restricted to the
fields the core logic reads. -/
def LEVELS : List Level := [
  ⟨1, .tutorial, ⟨0, 0⟩,
    ⟨4, 5, 90, .multiples, some 2, 1, [.standard], [.slowerEnemies], some (3, 5)⟩,
    [⟨"complete", .primary, .complete, none, 50, true⟩,
      ⟨"no_mistakes", .bonus, .noMistakes, none, 25, false⟩]⟩,
  ⟨2, .tutorial, ⟨30, 1⟩,
    ⟨4, 5, 90, .multiples, some 3, 1, [.standard], [.slowerEnemies], some (4, 6)⟩,
    [⟨"complete", .primary, .complete, none, 60, true⟩,
      ⟨"time_bonus", .bonus, .time, some 30, 30, false⟩]⟩,
  ⟨3, .tutorial, ⟨50, 2⟩,
    ⟨4, 5, 85, .multiples, some 5, 1, [.standard], [], some (4, 6)⟩,
    [⟨"complete", .primary, .complete, none, 70, true⟩,
      ⟨"high_score", .bonus, .score, some 150, 35, false⟩]⟩,
  ⟨4, .basic, ⟨80, 3⟩,
    ⟨5, 6, 60, .factors, some 12, 1, [.standard], [], some (4, 6)⟩,
    [⟨"complete", .primary, .complete, none, 80, true⟩,
      ⟨"accuracy", .bonus, .accuracy, some 80, 40, false⟩]⟩,
  ⟨5, .basic, ⟨100, 4⟩,
    ⟨5, 6, 60, .multiples, some 7, 2, [.standard, .speed], [], some (5, 7)⟩,
    [⟨"complete", .primary, .complete, none, 90, true⟩,
      ⟨"speed_bonus", .bonus, .time, some 15, 45, false⟩]⟩,
  ⟨6, .basic, ⟨120, 5⟩,
    ⟨5, 6, 70, .primes, none, 2, [.standard, .standard], [], some (5, 8)⟩,
    [⟨"complete", .primary, .complete, none, 100, true⟩,
      ⟨"perfect_accuracy", .bonus, .noMistakes, none, 50, false⟩]⟩,
  ⟨7, .basic, ⟨150, 6⟩,
    ⟨5, 6, 55, .factors, some 18, 2, [.standard, .speed], [.lessTime], some (5, 7)⟩,
    [⟨"complete", .primary, .complete, none, 110, true⟩,
      ⟨"dodge_master", .bonus, .noMistakes, none, 55, false⟩]⟩,
  ⟨8, .basic, ⟨180, 7⟩,
    ⟨5, 6, 50, .multiples, some 8, 2, [.standard, .speed], [.lessTime], some (6, 8)⟩,
    [⟨"complete", .primary, .complete, none, 120, true⟩,
      ⟨"high_score", .bonus, .score, some 300, 60, false⟩]⟩,
  ⟨9, .intermediate, ⟨200, 8⟩,
    ⟨5, 6, 60, .addition, some 10, 2, [.standard, .smart], [], some (6, 9)⟩,
    [⟨"complete", .primary, .complete, none, 130, true⟩,
      ⟨"efficiency", .bonus, .score, some 400, 65, false⟩]⟩,
  ⟨10, .intermediate, ⟨230, 9⟩,
    ⟨6, 7, 55, .subtraction, some 5, 3, [.standard, .smart, .speed], [.moreEnemies], some (6, 10)⟩,
    [⟨"complete", .primary, .complete, none, 140, true⟩,
      ⟨"survivor", .bonus, .noMistakes, none, 70, false⟩]⟩]

/-- `getLevelById` from levels.ts. -/
def getLevelById (id : Nat) : Option Level :=
  LEVELS.find? (fun level => level.id == id)

/-- `isLevelUnlocked` from levels.ts: level 1 is always unlocked;
otherwise the previous level id must appear in `completedLevels`, and
when player stats are available the total score must meet the level's
minimum. -/
def isLevelUnlocked (levelId : Nat) (completedLevels : List Nat)
    (totalScore : Option Int) : Bool :=
  match getLevelById levelId with
  | none => false
  | some level =>
      if levelId = 1 then true
      else if !(completedLevels.contains level.requirements.previousLevel) then false
      else
        match totalScore with
        | some ts => if ts < level.requirements.minScore then false else true
        | none => true

/-- `getDifficultyLevel` from enemyAI.ts. -/
def getDifficultyLevel (levelId : Nat) : Nat :=
  if levelId ≤ 3 then 1
  else if levelId ≤ 8 then 2
  else if levelId ≤ 15 then 3
  else if levelId ≤ 25 then 4
  else 5

/-- `generateLevelParameters` from levels.ts: apply the difficulty
modifiers to the base parameters. -/
def generateLevelParameters (level : Level) : LevelParameters :=
  level.parameters.difficultyModifiers.foldl
    (fun (params : LevelParameters) modifier =>
      match modifier with
      | .extraTime => { params with timeLimit := params.timeLimit + 15 }
      | .lessTime => { params with timeLimit := params.timeLimit - 10 }
      | .moreTargets =>
          match params.targetCount with
          | some (lo, hi) => { params with targetCount := some (lo + 1, hi + 2) }
          | none => params
      | .lessTargets =>
          match params.targetCount with
          | some (lo, hi) =>
              { params with targetCount := some (max 2 (lo - 1), max 3 (hi - 1)) }
          | none => params
      | .moreEnemies => { params with enemyCount := params.enemyCount + 1 }
      | _ => params)
    level.parameters


/-! ## Game state (types.ts `GameStateWithGuesses` / `LevelGameState`)

The source has two structurally-typed state shapes: the classic
`GameStateWithGuesses` and the extended `LevelGameState`; functions such
as `moveTroggles` receive either and branch on `'currentLevel' in
state`.  They are modelled by one superset structure whose level-only
fields carry inert defaults for classic states (`currentLevel := none`
plays the role of the absent property). -/

/-- Session summary (types.ts `GameSession`; the wall-clock
`startTime`/`endTime` fields are not modelled). -/
structure GameSession where
  levelId : Nat
  finalScore : Int
  accuracy : Int
  starsEarned : Nat
  objectivesCompleted : List String
  mistakes : Nat
  timeRemaining : Int
  deriving DecidableEq, Repr

/-- The game state. -/
structure GameState where
  grid : Grid
  muncher : Position
  troggles : List Position
  rule : GameRule
  targetNumber : Int
  score : Int
  gameOver : Bool
  incorrectGuesses : Nat
  gameWon : Bool := false
  currentLevel : Option Level := none
  session : GameSession := ⟨0, 0, 100, 0, [], 0, 0⟩
  objectives : List LevelObjective := []
  completedObjectives : List String := []
  timeLeft : Int := 0
  puzzlesSolved : Nat := 0
  accuracy : Int := 100
  currentStreak : Nat := 0
  deriving DecidableEq, Repr

/-- Update one list element in place (the functional rendering of the
source's `grid[r][c].field = v` writes on its copied grid). -/
def listUpdate {α : Type} : List α → Nat → (α → α) → List α
  | [], _, _ => []
  | x :: xs, 0, f => f x :: xs
  | x :: xs, n + 1, f => x :: listUpdate xs n f

/-- The default cell used for (never-exercised) out-of-range reads. -/
def defaultCell : Cell := ⟨.num 0, false, false, false, none, false, false⟩

/-- Read `grid[r][c]`. -/
def getCell (grid : Grid) (r c : Int) : Cell :=
  (grid.getD r.toNat []).getD c.toNat defaultCell

/-- Write `grid[r][c]` through an update function. -/
def setCell (grid : Grid) (r c : Int) (f : Cell → Cell) : Grid :=
  listUpdate grid r.toNat (fun row => listUpdate row c.toNat f)

/-! ## Per-kind Troggle decision functions (enemyAI.ts) -/

/-- `calculateStandardMove`. -/
def calculateStandardMove (position muncher : Position) (grid : Grid)
    (ai : EnemyAI) (g : Rng) : Position × Rng :=
  let rows := grid.length
  let cols := (grid.headD []).length
  let mg := mathRandom g
  if mg.1 < ai.intelligence then moveTowardTarget position muncher rows cols mg.2
  else getRandomAdjacentPosition position rows cols mg.2

/-- `calculateSpeedMove`: same shape, gated on aggressiveness. -/
def calculateSpeedMove (position muncher : Position) (grid : Grid)
    (ai : EnemyAI) (g : Rng) : Position × Rng :=
  let rows := grid.length
  let cols := (grid.headD []).length
  let mg := mathRandom g
  if mg.1 < ai.aggressiveness then moveTowardTarget position muncher rows cols mg.2
  else getRandomAdjacentPosition position rows cols mg.2

/-- `calculateSmartMove`: consume the cached BFS path, recomputing it
when exhausted; the updated Troggle (whose `path` the source mutates in
place) is returned alongside the position. -/
def calculateSmartMove (position muncher : Position) (grid : Grid)
    (troggle : TroggleState) (g : Rng) : Position × TroggleState × Rng :=
  let rows := grid.length
  let cols := (grid.headD []).length
  let path0 := if troggle.path.isEmpty then findPath position muncher grid
    else troggle.path
  match path0 with
  | [] =>
      let mt := moveTowardTarget position muncher rows cols g
      (mt.1, { troggle with path := [] }, mt.2)
  | nextStep :: restPath =>
      if isValidPosition nextStep rows cols then
        (nextStep, { troggle with path := restPath }, g)
      else
        let mt := moveTowardTarget position muncher rows cols g
        (mt.1, { troggle with path := restPath }, mt.2)

/-- `calculateBlockerMove`: step toward the midpoint between the muncher
and its nearest untaken target. -/
def calculateBlockerMove (position muncher : Position) (grid : Grid)
    (stateGrid : Grid) (g : Rng) : Position × Rng :=
  let rows := grid.length
  let cols := (grid.headD []).length
  let targets := findNearestTargets stateGrid muncher 3
  match targets with
  | [] => moveTowardTarget position muncher rows cols g
  | target :: _ =>
      match getBlockingPosition muncher target position with
      | some blockPosition => moveTowardTarget position blockPosition rows cols g
      | none => moveTowardTarget position muncher rows cols g

/-- `calculateHunterMove`: coordinate with sibling hunters to occupy the
four cells around the muncher.  (The source's `t.position !== position`
sibling filter is reference inequality; it is modelled by value
inequality, which only matters for a sibling standing on the exact same
cell and never changes the shape of the result.) -/
def calculateHunterMove (position muncher : Position) (grid : Grid)
    (allTroggles : List TroggleState) (g : Rng) : Position × Rng :=
  let rows := grid.length
  let cols := (grid.headD []).length
  let otherHunters := allTroggles.filter (fun t =>
    t.ai.type == .hunter && decide (t.position ≠ position))
  if !otherHunters.isEmpty then
    match calculateSurroundPosition muncher position otherHunters with
    | some surroundPosition => moveTowardTarget position surroundPosition rows cols g
    | none => moveTowardTarget position muncher rows cols g
  else moveTowardTarget position muncher rows cols g

/-- `calculateNextMove` from enemyAI.ts: dispatch on the behaviour kind;
a Troggle with positive cooldown stays put.  The rendered result also
carries the (possibly path-mutated) Troggle state, which the source
mutates in place. -/
def calculateNextMove (troggle : TroggleState) (gameState : GameState)
    (allTroggles : List TroggleState) (g : Rng) :
    Position × TroggleState × Rng :=
  let position := troggle.position
  let muncher := gameState.muncher
  let grid := gameState.grid
  if 0 < troggle.cooldown then (position, troggle, g)
  else
    match troggle.ai.type with
    | .standard =>
        let m := calculateStandardMove position muncher grid troggle.ai g
        (m.1, troggle, m.2)
    | .speed =>
        let m := calculateSpeedMove position muncher grid troggle.ai g
        (m.1, troggle, m.2)
    | .smart => calculateSmartMove position muncher grid troggle g
    | .blocker =>
        let m := calculateBlockerMove position muncher grid gameState.grid g
        (m.1, troggle, m.2)
    | .hunter =>
        let m := calculateHunterMove position muncher grid allTroggles g
        (m.1, troggle, m.2)


/-! ## Advanced scoring and objectives (advancedScoring module) -/

/-- The per-action scoring breakdown (types.ts `LevelScoring`). -/
structure LevelScoring where
  basePoints : Int
  timeBonus : Int
  accuracyMultiplier : ℚ
  difficultyBonus : Int
  streakBonus : Int
  objectiveBonus : Int
  deriving DecidableEq, Repr

/-- The per-category difficulty multipliers of `calculateLevelScore`. -/
def difficultyMultiplier : LevelCategory → ℚ
  | .tutorial => 1
  | .basic => 12/10
  | .intermediate => 15/10
  | .advanced => 2
  | .master => 3

/-- JavaScript `Math.round` on exact rationals (round half up). -/
def jsRound (q : ℚ) : Int := Rat.floor (q + 1/2)

/-- `calculateLevelScore` from the advanced-scoring module.  The source
throws when the level id is unknown; that is rendered as `none`. -/
def calculateLevelScore (baseScore : Int) (objectives : List LevelObjective)
    (completedObjectives : List String) (timeRemaining : Int)
    (accuracy : Int) (currentStreak : Int) (levelId : Nat) :
    Option LevelScoring :=
  match getLevelById levelId with
  | none => none
  | some level =>
      let difficultyBonus : Int :=
        Rat.floor ((baseScore : ℚ) * (difficultyMultiplier level.category - 1))
      let maxTimeBonus : Int := Rat.floor ((baseScore : ℚ) * (1/2))
      let timeBonus : Int :=
        Rat.floor (((timeRemaining : ℚ) / (level.parameters.timeLimit : ℚ)) *
          (maxTimeBonus : ℚ))
      let accuracyMultiplier : ℚ := max (1/2) (min 2 ((accuracy : ℚ) / 50))
      let streakBonus : Int := currentStreak * 10
      let objectiveBonus : Int := completedObjectives.foldl
        (fun total objId =>
          total + (match objectives.find? (fun obj => obj.id == objId) with
                   | some obj => obj.points
                   | none => 0)) 0
      some ⟨baseScore, timeBonus, accuracyMultiplier, difficultyBonus,
        streakBonus, objectiveBonus⟩

/-- `getTotalScore` from the advanced-scoring module. -/
def getTotalScore (scoring : LevelScoring) : Int :=
  Rat.floor (((scoring.basePoints + scoring.timeBonus + scoring.difficultyBonus +
    scoring.streakBonus + scoring.objectiveBonus : Int) : ℚ) *
    scoring.accuracyMultiplier)

/-- `checkObjectiveCompletion` from the advanced-scoring module (the one
`updateObjectives` uses; its `noMistakes` reads `incorrectGuesses`). -/
def checkObjectiveCompletion (objective : LevelObjective)
    (gameState : GameState) : Bool :=
  match objective.condition with
  | .complete => !(gameState.grid.any (fun row => row.any (fun cell => cell.isTarget)))
  | .score => gameState.score ≥ (objective.target.getD 0)
  | .time => gameState.timeLeft ≥ (objective.target.getD 0)
  | .accuracy => (gameState.accuracy : Int) ≥ (objective.target.getD 0)
  | .noMistakes => gameState.incorrectGuesses == 0

/-- `updateObjectives` from the advanced-scoring module: first-time
completions are appended and immediately credit their points to the
score; later conditions in the same pass see the credited score. -/
def updateObjectives (gameState : GameState) : GameState :=
  let step := gameState.objectives.foldl
    (fun (acc : List String × GameState) objective =>
      if acc.1.contains objective.id then acc
      else if checkObjectiveCompletion objective acc.2 then
        (acc.1 ++ [objective.id],
          { acc.2 with score := acc.2.score + objective.points })
      else acc)
    (gameState.completedObjectives, gameState)
  { step.2 with completedObjectives := step.1 }

/-! ## The App.tsx transition functions -/

/-- Result record of the eat transitions. -/
structure EatResult where
  didMunch : Bool
  correct : Bool
  hitTroggle : Bool
  nextState : GameState
  deriving DecidableEq, Repr

/-- `moveMuncherWithSound` from App.tsx: clamp the delta to the grid,
no-op when the clamped target equals the current cell, and declare
terminal loss when stepping onto a Troggle. -/
def moveMuncherWithSound (state : GameState) (dRow dCol : Int) :
    Bool × GameState :=
  if state.gameOver then (false, state)
  else
    let row := state.muncher.row
    let col := state.muncher.col
    let newRow := max 0 (min ((state.grid.length : Int) - 1) (row + dRow))
    let newCol := max 0 (min (((state.grid.headD []).length : Int) - 1) (col + dCol))
    if newRow = row ∧ newCol = col then (false, state)
    else
      let grid1 := setCell state.grid row col (fun c => { c with hasMuncher := false })
      let grid2 := setCell grid1 newRow newCol (fun c => { c with hasMuncher := true })
      let cell := getCell grid2 newRow newCol
      if cell.hasTroggle then
        (true,
          { state with
              grid := grid2, muncher := ⟨newRow, newCol⟩, gameOver := true })
      else
        (false, { state with grid := grid2, muncher := ⟨newRow, newCol⟩ })

/-- `muncherEatWithSound` from App.tsx (classic mode): re-validate the
cell against the live rule, score a correct munch, count a mistake on an
incorrect one (3 mistakes lose), heal a stale target flag. -/
def muncherEatWithSound (state : GameState) : EatResult :=
  if state.gameOver || state.gameWon then ⟨false, false, false, state⟩
  else
    let row := state.muncher.row
    let col := state.muncher.col
    let cell := getCell state.grid row col
    if cell.hasTroggle then
      ⟨false, false, true, { state with gameOver := true, gameWon := false }⟩
    else
      let isActuallyCorrect :=
        if cell.isTarget then isCorrect cell.value state.rule state.targetNumber
        else false
      if cell.isTarget && isActuallyCorrect then
        let score := state.score + 10
        let grid2 := setCell state.grid row col (fun c =>
          { c with isTarget := false, revealed := true, munchedCorrect := true })
        let targetsLeft := grid2.any (fun r =>
          r.any (fun c => c.isTarget && !c.hasMuncher))
        ⟨true, true, false,
          { state with grid := grid2, score := score, gameWon := !targetsLeft }⟩
      else if cell.isTarget && !isActuallyCorrect then
        let incorrectGuesses := state.incorrectGuesses + 1
        let grid2 := setCell state.grid row col (fun c => { c with isTarget := false })
        if incorrectGuesses ≥ 3 then
          ⟨true, false, false,
            { state with
                grid := grid2, incorrectGuesses := incorrectGuesses,
                gameOver := true, gameWon := false }⟩
        else
          ⟨true, false, false,
            { state with grid := grid2, incorrectGuesses := incorrectGuesses }⟩
      else
        let incorrectGuesses := state.incorrectGuesses + 1
        if incorrectGuesses ≥ 3 then
          ⟨true, false, false,
            { state with
                incorrectGuesses := incorrectGuesses,
                gameOver := true, gameWon := false }⟩
        else
          ⟨true, false, false, { state with incorrectGuesses := incorrectGuesses }⟩

/-- `muncherEatWithScoringAndSound` from App.tsx (level mode).  The
source dereferences `state.currentLevel.id` and `calculateLevelScore`
throws on an unknown level id; both crash paths are rendered as
`none`. -/
def muncherEatWithScoringAndSound (state : GameState) : Option EatResult :=
  if state.gameOver || state.gameWon then some ⟨false, false, false, state⟩
  else
    let row := state.muncher.row
    let col := state.muncher.col
    let cell := getCell state.grid row col
    if cell.hasTroggle then
      some ⟨false, false, true, { state with gameOver := true, gameWon := false }⟩
    else
      let isActuallyCorrect :=
        if cell.isTarget then isCorrect cell.value state.rule state.targetNumber
        else false
      if cell.isTarget && isActuallyCorrect then
        match state.currentLevel with
        | none => none
        | some lvl =>
            let streak := state.currentStreak + 1
            let solved := state.puzzlesSolved + 1
            match calculateLevelScore 10 state.objectives state.completedObjectives
              state.timeLeft state.accuracy (streak : Int) lvl.id with
            | none => none
            | some scoring =>
                let totalScore := getTotalScore scoring
                let grid2 := setCell state.grid row col (fun c =>
                  { c with isTarget := false, revealed := true, munchedCorrect := true })
                let st1 :=
                  { state with
                      currentStreak := streak, puzzlesSolved := solved,
                      score := state.score + totalScore, grid := grid2 }
                let st2 := updateObjectives st1
                let targetsLeft := grid2.any (fun r =>
                  r.any (fun c => c.isTarget && !c.hasMuncher))
                let st3 := if targetsLeft then st2 else { st2 with gameWon := true }
                some ⟨true, true, false, st3⟩
      else
        let incorrectGuesses := state.incorrectGuesses + 1
        let mistakes := state.session.mistakes + 1
        let total := state.puzzlesSolved + mistakes
        let accuracy : Int :=
          if total = 0 then 100
          else jsRound (((state.puzzlesSolved : ℚ) / (total : ℚ)) * 100)
        let grid2 :=
          if cell.isTarget && !isActuallyCorrect then
            setCell state.grid row col (fun c => { c with isTarget := false })
          else state.grid
        let st1 :=
          { state with
              currentStreak := 0, incorrectGuesses := incorrectGuesses,
              session := { state.session with mistakes := mistakes },
              accuracy := accuracy, grid := grid2 }
        let st2 :=
          if incorrectGuesses ≥ 3 then
            { st1 with gameOver := true, gameWon := false }
          else st1
        some ⟨true, false, false, st2⟩

/-- One Troggle step of the level-mode branch of `moveTroggles`. -/
def moveTrogglesLevelStep (state : GameState) (difficultyLevel : Nat)
    (levelEnemyTypes : List EnemyType)
    (acc : Grid × List Position × Rng) (i : Nat) : Grid × List Position × Rng :=
  let troggle := state.troggles.getD i ⟨0, 0⟩
  let grid1 := setCell acc.1 troggle.row troggle.col
    (fun c => { c with hasTroggle := false })
  let enemyType :=
    if levelEnemyTypes.isEmpty then .standard
    else levelEnemyTypes.getD (i % levelEnemyTypes.length) .standard
  let ai := createEnemyAI enemyType difficultyLevel
  let ts : TroggleState := ⟨troggle, enemyType, ai, none, [], 0⟩
  let nm := calculateNextMove ts state [] acc.2.2
  let newPos := nm.1
  let grid2 := setCell grid1 newPos.row newPos.col
    (fun c => { c with hasTroggle := true, troggleType := some enemyType })
  (grid2, acc.2.1 ++ [newPos], nm.2.2)

/-- One Troggle step of the classic-mode branch of `moveTroggles`. -/
def moveTrogglesClassicStep (rows cols : Nat)
    (acc : Grid × List Position × Rng) (troggle : Position) :
    Grid × List Position × Rng :=
  let grid1 := setCell acc.1 troggle.row troggle.col
    (fun c => { c with hasTroggle := false })
  let mg := mathRandom acc.2.2
  let dg :=
    if mg.1 < 1/2 then
      let r := randInt (-1) 1 mg.2
      ((r.1, (0 : Int)), r.2)
    else
      let r := randInt (-1) 1 mg.2
      (((0 : Int), r.1), r.2)
  let newRow := max 0 (min ((rows : Int) - 1) (troggle.row + dg.1.1))
  let newCol := max 0 (min ((cols : Int) - 1) (troggle.col + dg.1.2))
  let grid2 := setCell grid1 newRow newCol (fun c => { c with hasTroggle := true })
  (grid2, acc.2.1 ++ [(⟨newRow, newCol⟩ : Position)], dg.2)

/-- The per-Troggle movement loop of `moveTroggles` (the two `for`
loops): produces the working grid, the complete list of post-move
positions, and the advanced random stream. -/
def runTroggleMoves (state : GameState) (g : Rng) : Grid × List Position × Rng :=
  let rows := state.grid.length
  let cols := (state.grid.headD []).length
  if state.currentLevel.isSome then
    let difficultyLevel := getDifficultyLevel
      (match state.currentLevel with
       | some l => if l.id = 0 then 1 else l.id
       | none => 1)
    let levelEnemyTypes :=
      match state.currentLevel with
      | some l => l.parameters.enemyTypes
      | none => [.standard]
    (List.range state.troggles.length).foldl
      (moveTrogglesLevelStep state difficultyLevel levelEnemyTypes)
      (state.grid, [], g)
  else
    state.troggles.foldl (moveTrogglesClassicStep rows cols)
      (state.grid, [], g)

/-- `moveTroggles` from App.tsx: move every Troggle (level mode through
`calculateNextMove`, classic mode by a random clamped single-axis step),
then — only after all have moved — declare terminal loss if any landed
on the Muncher. -/
def moveTroggles (state : GameState) (g : Rng) : GameState × Rng :=
  if state.gameOver || state.gameWon then (state, g)
  else
    let step := runTroggleMoves state g
    let newTroggles := step.2.1
    if newTroggles.any (fun t =>
        decide (t.row = state.muncher.row) && decide (t.col = state.muncher.col)) then
      ({ state with
            grid := step.1, troggles := newTroggles,
            gameOver := true, gameWon := false }, step.2.2)
    else
      ({ state with grid := step.1, troggles := newTroggles }, step.2.2)


/-! ## C10, C9, C3 -/

/-- All four transition functions return a terminal-loss state
untouched. -/
def FrozenAt (state : GameState) : Prop :=
  (∀ dRow dCol : Int, moveMuncherWithSound state dRow dCol = (false, state)) ∧
  muncherEatWithSound state = ⟨false, false, false, state⟩ ∧
  muncherEatWithScoringAndSound state = some ⟨false, false, false, state⟩ ∧
  ∀ g : Rng, moveTroggles state g = (state, g)

/-- **C10.** For every state with `gameOver = true`, each of
`moveMuncherWithSound`, `muncherEatWithSound`,
`muncherEatWithScoringAndSound` and `moveTroggles` returns its input
state unchanged: a terminal-loss session is frozen. -/
theorem terminal_loss_state_frozen (state : GameState)
    (hover : state.gameOver = true) : FrozenAt state := by
  refine ⟨?_, ?_, ?_, ?_⟩
  · intro dRow dCol
    rw [moveMuncherWithSound, if_pos hover]
  · rw [muncherEatWithSound,
      if_pos (show (state.gameOver || state.gameWon) = true by simp [hover])]
  · rw [muncherEatWithScoringAndSound,
      if_pos (show (state.gameOver || state.gameWon) = true by simp [hover])]
  · intro g
    rw [moveTroggles,
      if_pos (show (state.gameOver || state.gameWon) = true by simp [hover])]

/-- A minimal concrete terminal-loss state. -/
def terminalState : GameState :=
  { grid := [[defaultCell]], muncher := ⟨0, 0⟩, troggles := [],
    rule := .multiples, targetNumber := 2, score := 40, gameOver := true,
    incorrectGuesses := 1 }

/-- Witness for C10 at a concrete terminal state. -/
theorem terminal_loss_state_frozen_witness :
    terminalState.gameOver = true ∧ FrozenAt terminalState :=
  ⟨rfl, terminal_loss_state_frozen terminalState rfl⟩

/-- **C9 (amended).** A Troggle with a positive move-cooldown does not
move this tick, and the call leaves the Troggle — including its
cooldown — completely unchanged (the source never decrements any
cooldown). -/
theorem cooldown_skips_move_without_decrement (troggle : TroggleState)
    (gameState : GameState) (allTroggles : List TroggleState) (g : Rng)
    (hcd : 0 < troggle.cooldown) :
    calculateNextMove troggle gameState allTroggles g =
      (troggle.position, troggle, g) := by
  unfold calculateNextMove
  simp only []
  rw [if_pos hcd]

/-- A concrete Troggle one tick into its cooldown. -/
def cooldownTroggle : TroggleState :=
  { position := ⟨1, 1⟩, type := .speed, ai := createEnemyAI .speed 2,
    cooldown := 1 }

/-- A concrete classic-mode state for the AI claims. -/
def aiProbeState : GameState :=
  { grid := [[defaultCell, defaultCell, defaultCell],
      [defaultCell, defaultCell, defaultCell],
      [defaultCell, defaultCell, defaultCell]],
    muncher := ⟨0, 0⟩, troggles := [⟨2, 2⟩],
    rule := .multiples, targetNumber := 2, score := 0, gameOver := false,
    incorrectGuesses := 0 }

/-- **C9 (counterexample).** With cooldown 1 the Troggle indeed stays
put, but the cooldown of the Troggle after the call is still 1 — it is
not decremented to 0 as the claim states (the code never decrements
it). -/
theorem cooldown_not_decremented :
    (calculateNextMove cooldownTroggle aiProbeState [] streamId).2.1.cooldown = 1 ∧
      ¬ ((calculateNextMove cooldownTroggle aiProbeState [] streamId).2.1.cooldown =
        cooldownTroggle.cooldown - 1) := by
  constructor
  · rfl
  · decide

/-- Witness for the amended C9 theorem at a concrete input. -/
theorem cooldown_skips_move_without_decrement_witness :
    (0 : Int) < cooldownTroggle.cooldown ∧
      calculateNextMove cooldownTroggle aiProbeState [] streamId =
        (cooldownTroggle.position, cooldownTroggle, streamId) :=
  ⟨by decide,
    cooldown_skips_move_without_decrement cooldownTroggle aiProbeState []
      streamId (by decide)⟩

/-- The collision condition of C3 bundled over a state and stream. -/
def TickCollisionIff (state : GameState) (g : Rng) : Prop :=
  (moveTroggles state g).1.troggles = (runTroggleMoves state g).2.1 ∧
  (runTroggleMoves state g).2.1.length = state.troggles.length ∧
  ((moveTroggles state g).1.gameOver = true ↔
    ∃ t ∈ (runTroggleMoves state g).2.1,
      t.row = state.muncher.row ∧ t.col = state.muncher.col)

theorem foldl_step_length {α β : Type} (f : Grid × List Position × β → α → Grid × List Position × β)
    (hf : ∀ acc x, ((f acc x).2.1).length = acc.2.1.length + 1) :
    ∀ (l : List α) (acc : Grid × List Position × β),
      ((l.foldl f acc).2.1).length = acc.2.1.length + l.length := by
  intro l
  induction l with
  | nil => intro acc; simp
  | cons x xs ih =>
    intro acc
    rw [List.foldl_cons, ih (f acc x), hf acc x, List.length_cons]
    omega

theorem runTroggleMoves_length (state : GameState) (g : Rng) :
    (runTroggleMoves state g).2.1.length = state.troggles.length := by
  rw [runTroggleMoves]
  by_cases hl : state.currentLevel.isSome
  · simp only [hl, if_pos]
    rw [foldl_step_length _ (fun acc i => by
      rw [moveTrogglesLevelStep]
      simp)]
    simp
  · simp only [hl]
    rw [if_neg (by simp [hl])]
    rw [foldl_step_length _ (fun acc t => by
      rw [moveTrogglesClassicStep]
      simp)]
    simp

/-- **C3.** For every pre-tick state with `gameOver = false` and
`gameWon = false`, the state returned by `moveTroggles` carries the
complete list of post-move Troggle positions (one per Troggle — every
Troggle is moved before any collision check), and its `gameOver` flag is
true exactly when some post-move position equals the Muncher's. -/
theorem moveTroggles_collision_iff (state : GameState) (g : Rng)
    (hover : state.gameOver = false) (hwon : state.gameWon = false) :
    TickCollisionIff state g := by
  refine ⟨?_, runTroggleMoves_length state g, ?_⟩
  · rw [moveTroggles,
      if_neg (show ¬ (state.gameOver || state.gameWon) = true by
        simp [hover, hwon])]
    simp only []
    by_cases hcol : ((runTroggleMoves state g).2.1.any (fun t =>
        decide (t.row = state.muncher.row) &&
          decide (t.col = state.muncher.col))) = true
    · rw [if_pos hcol]
    · rw [if_neg hcol]
  · rw [moveTroggles,
      if_neg (show ¬ (state.gameOver || state.gameWon) = true by
        simp [hover, hwon])]
    simp only []
    by_cases hcol : ((runTroggleMoves state g).2.1.any (fun t =>
        decide (t.row = state.muncher.row) &&
          decide (t.col = state.muncher.col))) = true
    · rw [if_pos hcol]
      simp only [true_iff]
      rcases List.any_eq_true.mp hcol with ⟨t, ht, hprop⟩
      refine ⟨t, ht, ?_⟩
      simpa using hprop
    · rw [if_neg hcol]
      simp only [hover]
      constructor
      · intro hfalse
        exact absurd hfalse (by simp)
      · rintro ⟨t, ht, hr, hc⟩
        exfalso
        apply hcol
        rw [List.any_eq_true]
        exact ⟨t, ht, by simp [hr, hc]⟩

/-- Witness for C3 at a concrete pre-tick state. -/
theorem moveTroggles_collision_iff_witness :
    aiProbeState.gameOver = false ∧ aiProbeState.gameWon = false ∧
      TickCollisionIff aiProbeState streamId :=
  ⟨rfl, rfl, moveTroggles_collision_iff aiProbeState streamId rfl rfl⟩


/-! ## Level-state initialization (levelGameState module) -/

/-- `getRandomEmptyPosition` from gameUtils.ts: uniform choice among
cells free of both tokens; `(0,0)` fallback when none exists. -/
def getRandomEmptyPosition (grid : Grid) (g : Rng) : Position × Rng :=
  let empty := (List.range grid.length).flatMap (fun r =>
    (List.range ((grid.headD []).length)).filterMap (fun c =>
      let cell := getCell grid (r : Int) (c : Int)
      if !cell.hasMuncher && !cell.hasTroggle then
        some (⟨(r : Int), (c : Int)⟩ : Position)
      else none))
  if empty.isEmpty then (⟨0, 0⟩, g)
  else
    let rg := randInt 0 ((empty.length : Int) - 1) g
    (empty.getD rg.1.toNat ⟨0, 0⟩, rg.2)

/-- One level-progress record of the save data (types.ts
`LevelProgress`), restricted to the fields the unlock path can see. -/
structure LevelProgressEntry where
  levelId : Nat
  completed : Bool
  deriving DecidableEq, Repr

/-- Aggregate player statistics (types.ts `PlayerStats`), restricted to
the one field the unlock check reads. -/
structure PlayerStatsM where
  totalScore : Int
  deriving DecidableEq, Repr

/-- Save data (types.ts `SaveData`), restricted to the fields
`initializeLevelGameState` reads; `levelProgress` is the key-indexed
record rendered as an association list. -/
structure SaveData where
  levelProgress : List (Nat × LevelProgressEntry)
  playerStats : PlayerStatsM
  deriving DecidableEq, Repr

/-- `Object.keys(existingSave.levelProgress).map(Number)`: the list of
level ids that have ANY progress entry (completed or not). -/
def completedKeys (save : Option SaveData) : List Nat :=
  match save with
  | some s => s.levelProgress.map Prod.fst
  | none => []

/-- `initializeLevelGameState` from the level-game-state module: `none`
for an unknown or locked level (the source's `return null`), otherwise a
fresh `LevelGameState` with a generated grid and randomly placed tokens.
`generateGrid` is run with retry fuel 12 (always enough) and
position-sampling fuel 1000; a sampling stream on which the source's
unbounded loop would not finish also yields `none`. -/
def initializeLevelGameState (levelId : Nat) (existingSave : Option SaveData)
    (g : Rng) : Option GameState :=
  match getLevelById levelId with
  | none => none
  | some level =>
      let stats := existingSave.map (fun s => s.playerStats.totalScore)
      if !(isLevelUnlocked levelId (completedKeys existingSave) stats) then none
      else
        let params := generateLevelParameters level
        match generateGrid params.gridRows params.gridCols params.rule
          (params.targetNumber.getD 0) 0 12 1000 g with
        | none => none
        | some gridAndRng =>
            let grid1 := gridAndRng.1.map (fun row => row.map (fun c =>
              { c with revealed := false }))
            let mp := getRandomEmptyPosition grid1 gridAndRng.2
            let grid2 := setCell grid1 mp.1.row mp.1.col
              (fun c => { c with hasMuncher := true })
            let placed := (List.range params.enemyCount).foldl
              (fun (acc : Grid × List Position × Rng) _ =>
                let tp := getRandomEmptyPosition acc.1 acc.2.2
                (setCell acc.1 tp.1.row tp.1.col
                  (fun c => { c with hasTroggle := true }),
                  acc.2.1 ++ [tp.1], tp.2))
              (grid2, [], mp.2)
            some
              { grid := placed.1, muncher := mp.1, troggles := placed.2.1,
                rule := params.rule, targetNumber := params.targetNumber.getD 0,
                score := 0, gameOver := false, incorrectGuesses := 0,
                gameWon := false,
                currentLevel := some level,
                session := ⟨levelId, 0, 100, 0, [], 0, params.timeLimit⟩,
                objectives := level.objectives,
                completedObjectives := [],
                timeLeft := params.timeLimit, puzzlesSolved := 0,
                accuracy := 100, currentStreak := 0 }


/-! ## C4: the time bonus formula -/

theorem ratFloor_eq_intFloor (q : ℚ) : q.floor = ⌊q⌋ := rfl

/-- **C4 (amended).** The `timeBonus` component computed by
`calculateLevelScore` equals
`floor((timeLeft / timeLimit) * floor(base * 0.5))` — the inner product
is floored to an integer `maxTimeBonus` first — which in integer
arithmetic is `(timeLeft * (base / 2)) / timeLimit`.  It agrees with the
claimed `floor((timeLeft / timeLimit) * base * 0.5)` when `base` is
even, but not in general. -/
theorem timeBonus_eq_floored_maxTimeBonus (base : Int)
    (objectives : List LevelObjective) (completed : List String)
    (t acc streak : Int) (levelId : Nat) (level : Level)
    (hlevel : getLevelById levelId = some level)
    (_ht0 : 0 ≤ t) (_htT : t ≤ level.parameters.timeLimit)
    (hT : 0 < level.parameters.timeLimit) :
    (calculateLevelScore base objectives completed t acc streak levelId).map
      (fun s => s.timeBonus) =
    some ((t * (base / 2)) / level.parameters.timeLimit) := by
  rw [calculateLevelScore, hlevel]
  simp only []
  rw [ratFloor_eq_intFloor (((t : ℚ) / (level.parameters.timeLimit : ℚ)) * _)]
  have h2 : ((base : ℚ) * (1 / 2)).floor = base / 2 := by
    rw [ratFloor_eq_intFloor]
    rw [show ((base : ℚ) * (1 / 2)) = (base : ℚ) / ((2 : ℕ) : ℚ) by push_cast; ring]
    exact_mod_cast Rat.floor_intCast_div_natCast base 2
  rw [h2]
  have hnn : (0 : ℤ) ≤ level.parameters.timeLimit := le_of_lt hT
  have hcast : ((level.parameters.timeLimit.toNat : ℕ) : ℚ) =
      (level.parameters.timeLimit : ℚ) := by
    exact_mod_cast congrArg (fun z : ℤ => (z : ℚ)) (Int.toNat_of_nonneg hnn)
  rw [show ((t : ℚ) / (level.parameters.timeLimit : ℚ) * ((base / 2 : ℤ) : ℚ)) =
      ((t * (base / 2) : ℤ) : ℚ) / ((level.parameters.timeLimit.toNat : ℕ) : ℚ) by
    rw [hcast]; push_cast; ring]
  rw [Rat.floor_intCast_div_natCast]
  rw [show ((level.parameters.timeLimit.toNat : ℕ) : ℤ) = level.parameters.timeLimit
    from Int.toNat_of_nonneg hnn]
  rfl

/-- A placeholder level used only as a `getD` default. -/
def dummyLevel : Level :=
  ⟨0, .tutorial, ⟨0, 0⟩, ⟨1, 1, 1, .multiples, none, 0, [], [], none⟩, []⟩

/-- The first catalog level as a literal. -/
def levelOneLit : Level := LEVELS.getD 0 dummyLevel

/-- **C4 (counterexample).** With base 10→3 points... at base 3,
timeLeft 80 on level 1 (timeLimit 90) the code computes
`floor((80/90) * floor(1.5)) = 0`, while the claimed formula
`floor((80/90) * 3 * 0.5)` evaluates to 1. -/
theorem timeBonus_formula_mismatch :
    ((calculateLevelScore 3 [] [] 80 100 0 1).map (fun s => s.timeBonus)) = some 0 ∧
      Rat.floor (((80 : ℚ) / 90) * 3 * (1 / 2)) = 1 := by
  constructor
  · have hlevel : getLevelById 1 = some levelOneLit := by decide
    rw [calculateLevelScore, hlevel]
    simp only []
    have hTL : levelOneLit.parameters.timeLimit = 90 := by decide
    rw [hTL]
    have hinner : ((((3 : ℤ) : ℚ)) * (1 / 2)).floor = 1 := by
      rw [ratFloor_eq_intFloor]
      norm_num [Int.floor_eq_iff]
    rw [hinner]
    have houter : ((((80 : ℤ) : ℚ)) / (((90 : ℤ)) : ℚ) * (((1 : ℤ) : ℚ))).floor = 0 := by
      rw [ratFloor_eq_intFloor]
      norm_num [Int.floor_eq_iff]
    rw [houter]
    rfl
  · rw [ratFloor_eq_intFloor]
    norm_num [Int.floor_eq_iff]

/-- Witness for the amended C4 theorem at a concrete input. -/
theorem timeBonus_eq_floored_maxTimeBonus_witness :
    (getLevelById 1 = some levelOneLit ∧ (0 : Int) ≤ 45 ∧
      (45 : Int) ≤ levelOneLit.parameters.timeLimit ∧
      (0 : Int) < levelOneLit.parameters.timeLimit) ∧
    (calculateLevelScore 10 [] [] 45 100 0 1).map (fun s => s.timeBonus) =
      some ((45 * ((10 : Int) / 2)) / levelOneLit.parameters.timeLimit) :=
  ⟨⟨by decide, by decide, by decide, by decide⟩,
    timeBonus_eq_floored_maxTimeBonus 10 [] [] 45 100 0 1 levelOneLit
      (by decide) (by decide) (by decide) (by decide)⟩

/-! ## C6: level initialization -/

/-- **C6 (amended).** `initializeLevelGameState` produces no game state
whenever the level id is unknown or the level is locked, where — unlike
the claim's "marked completed" — a level other than level 1 counts as
unlocked iff the previous level id has ANY progress entry in the save
(completed or not) and, when a save is present, the player's total score
meets the level's minimum; level 1 is always unlocked.  (Conversely,
whenever a state is produced the level was known and unlocked in this
sense; with a successful generation stream an unlocked level does
produce a state, as the counterexample exhibits concretely.) -/
theorem initialize_none_of_unknown_or_locked (levelId : Nat)
    (save : Option SaveData) (g : Rng)
    (h : getLevelById levelId = none ∨
      isLevelUnlocked levelId (completedKeys save)
        (save.map (fun s => s.playerStats.totalScore)) = false) :
    initializeLevelGameState levelId save g = none := by
  rcases h with h | h
  · rw [initializeLevelGameState, h]
  · rw [initializeLevelGameState]
    cases hl : getLevelById levelId with
    | none => rfl
    | some level =>
        simp only []
        rw [if_pos (by rw [h]; rfl)]

/-- Witness for the amended C6 theorem at a concrete locked input. -/
theorem initialize_none_of_unknown_or_locked_witness :
    (getLevelById 3 = none ∨
      isLevelUnlocked 3 (completedKeys none)
        ((none : Option SaveData).map (fun s => s.playerStats.totalScore)) = false) ∧
    initializeLevelGameState 3 none streamId = none :=
  ⟨Or.inr (by decide),
    initialize_none_of_unknown_or_locked 3 none streamId (Or.inr (by decide))⟩

/-- A save where level 1 was attempted but never completed
(`completed = false`), with enough total score for level 2. -/
def attemptOnlySave : SaveData := ⟨[(1, ⟨1, false⟩)], ⟨100⟩⟩

set_option maxRecDepth 400000 in
/-- **C6 (counterexample).** With a save whose only level-1 progress
entry has `completed = false` — so no level is "marked completed" —
`initializeLevelGameState(2, save)` nevertheless produces a game state:
the unlock check uses `Object.keys(levelProgress)` (any progress entry),
not the `completed` flag, refuting the claim's characterization of when
initialization fails. -/
theorem initialize_succeeds_without_completion :
    (initializeLevelGameState 2 (some attemptOnlySave) streamId).isSome = true ∧
      attemptOnlySave.levelProgress.all (fun p => !p.2.completed) = true := by
  constructor
  · decide
  · decide


/-! ## C7: BFS pathfinding — geometry -/

/-- Manhattan distance between two positions. -/
def manhattan (a b : Position) : Nat :=
  (a.row - b.row).natAbs + (a.col - b.col).natAbs

/-- Strict in-bounds predicate, the Prop form of `isValidPosition`. -/
def inBoundsPos (p : Position) (rows cols : Nat) : Prop :=
  0 ≤ p.row ∧ p.row < (rows : Int) ∧ 0 ≤ p.col ∧ p.col < (cols : Int)

instance (p : Position) (rows cols : Nat) :
    Decidable (inBoundsPos p rows cols) := by
  unfold inBoundsPos
  infer_instance

theorem isValidPosition_iff (p : Position) (rows cols : Nat) :
    isValidPosition p rows cols = true ↔ inBoundsPos p rows cols := by
  simp [isValidPosition, inBoundsPos, and_assoc]

/-- One orthogonal grid step. -/
def stepAdj (p q : Position) : Prop := manhattan p q = 1

/-- A list of positions is a valid walk from `s`: each consecutive pair
is orthogonally adjacent and every visited position is in bounds. -/
def validSteps (rows cols : Nat) : Position → List Position → Prop
  | _, [] => True
  | s, q :: rest => stepAdj s q ∧ inBoundsPos q rows cols ∧ validSteps rows cols q rest

/-- The final position of a walk. -/
def walkEnd : Position → List Position → Position
  | s, [] => s
  | _, q :: rest => walkEnd q rest

theorem manhattan_self (a : Position) : manhattan a a = 0 := by
  simp [manhattan]

theorem manhattan_eq_zero {a b : Position} (h : manhattan a b = 0) : a = b := by
  obtain ⟨ar, ac⟩ := a
  obtain ⟨br, bc⟩ := b
  simp only [manhattan] at h
  simp only [Position.mk.injEq]
  omega

theorem manhattan_le_walk_length (rows cols : Nat) :
    ∀ (π : List Position) (s : Position), validSteps rows cols s π →
      manhattan s (walkEnd s π) ≤ π.length := by
  intro π
  induction π with
  | nil =>
    intro s _
    simp [walkEnd, manhattan_self]
  | cons q rest ih =>
    intro s hv
    obtain ⟨hadj, -, hrest⟩ := hv
    have h1 := ih q hrest
    simp only [walkEnd, List.length_cons]
    simp only [stepAdj, manhattan] at hadj h1 ⊢
    omega

theorem walkEnd_concat (q : Position) :
    ∀ (π : List Position) (s : Position), walkEnd s (π ++ [q]) = q := by
  intro π
  induction π with
  | nil => intro s; rfl
  | cons x rest ih =>
    intro s
    simp only [List.cons_append, walkEnd]
    exact ih x

theorem validSteps_concat (rows cols : Nat) (q : Position) :
    ∀ (π : List Position) (s : Position), validSteps rows cols s π →
      stepAdj (walkEnd s π) q → inBoundsPos q rows cols →
      validSteps rows cols s (π ++ [q]) := by
  intro π
  induction π with
  | nil =>
    intro s _ hadj hb
    exact ⟨hadj, hb, trivial⟩
  | cons x rest ih =>
    intro s hv hadj hb
    obtain ⟨h1, h2, h3⟩ := hv
    exact ⟨h1, h2, ih x h3 hadj hb⟩

theorem posKey_inj {p q : Position} (h : posKey p = posKey q) : p = q := by
  obtain ⟨pr, pc⟩ := p
  obtain ⟨qr, qc⟩ := q
  simp only [posKey, Prod.mk.injEq] at h
  simp [Position.mk.injEq, h.1, h.2]

/-- The four neighbour candidates generated by the BFS expansion. -/
def neighborsOf (p : Position) : List Position :=
  [⟨p.row - 1, p.col⟩, ⟨p.row + 1, p.col⟩, ⟨p.row, p.col - 1⟩, ⟨p.row, p.col + 1⟩]

theorem mem_neighborsOf_iff (p q : Position) :
    q ∈ neighborsOf p ↔ stepAdj p q := by
  obtain ⟨pr, pc⟩ := p
  obtain ⟨qr, qc⟩ := q
  simp only [neighborsOf, stepAdj, manhattan, List.mem_cons, List.mem_singleton,
    List.not_mem_nil, or_false, Position.mk.injEq]
  omega

/-- Point `j` steps along the canonical row-first geodesic. -/
def towards (a b : Int) (s : Nat) : Int := if a ≤ b then a + s else a - s

/-- The point `j` steps from `sp` along the row-first geodesic to `q`. -/
def interp (sp q : Position) (j : Nat) : Position :=
  let rs := min j (q.row - sp.row).natAbs
  let cs := j - rs
  ⟨towards sp.row q.row rs, towards sp.col q.col cs⟩

theorem interp_dist (sp q : Position) (j : Nat) :
    manhattan sp (interp sp q j) = j := by
  simp only [manhattan, interp, towards]
  split_ifs <;> omega

theorem interp_bounds (sp q : Position) (rows cols : Nat) (j : Nat)
    (hj : j ≤ manhattan sp q)
    (hs : inBoundsPos sp rows cols) (hq : inBoundsPos q rows cols) :
    inBoundsPos (interp sp q j) rows cols := by
  simp only [manhattan] at hj
  simp only [inBoundsPos, interp, towards] at hs hq ⊢
  split_ifs <;> omega

theorem interp_last (sp q : Position) (j : Nat) (hj : manhattan sp q = j) :
    interp sp q j = q := by
  obtain ⟨qr, qc⟩ := q
  simp only [manhattan] at hj
  simp only [interp, towards, Position.mk.injEq]
  split_ifs <;> omega

theorem interp_adj (sp q : Position) (j : Nat) :
    stepAdj (interp sp q j) (interp sp q (j + 1)) := by
  simp only [stepAdj, manhattan, interp, towards]
  split_ifs <;> omega


/-! ## C7: BFS pathfinding — invariant and main lemma -/

/-- The set of keys of all in-bounds positions. -/
def boundsKeys (rows cols : Nat) : Finset (Int × Int) :=
  Finset.Ico (0 : Int) (rows : Int) ×ˢ Finset.Ico (0 : Int) (cols : Int)

theorem mem_boundsKeys (rows cols : Nat) (p : Position) :
    posKey p ∈ boundsKeys rows cols ↔ inBoundsPos p rows cols := by
  simp [boundsKeys, posKey, inBoundsPos, Finset.mem_product, Finset.mem_Ico, and_assoc]

theorem card_boundsKeys (rows cols : Nat) :
    (boundsKeys rows cols).card = rows * cols := by
  rw [boundsKeys, Finset.card_product, Int.card_Ico, Int.card_Ico]
  simp

/-- The data recorded by a BFS queue entry at level `lvl`: its path is a
valid in-bounds walk from `start` of length `lvl` ending at the entry's
position. -/
def entryOK (start : Position) (rows cols lvl : Nat)
    (pos : Position) (path : List Position) : Prop :=
  validSteps rows cols start path ∧ walkEnd start path = pos ∧
    path.length = lvl ∧ inBoundsPos pos rows cols

/-- A correct BFS answer: a valid in-bounds walk from `start` to `endP` of
minimal (= Manhattan) length. -/
def GoodPath (start endP : Position) (rows cols : Nat) (path : List Position) : Prop :=
  validSteps rows cols start path ∧ walkEnd start path = endP ∧
    path.length = manhattan start endP

/-- The BFS loop invariant.  `Q1` holds the remaining level-`k` entries,
`Q2` the level-`k+1` entries queued behind them, and `V` the visited keys. -/
structure BfsInv (start endP : Position) (rows cols k : Nat)
    (V : Finset (Int × Int)) (Q1 Q2 : List (Position × List Position)) : Prop where
  hQ1 : ∀ pos path, (pos, path) ∈ Q1 → entryOK start rows cols k pos path
  hQ2 : ∀ pos path, (pos, path) ∈ Q2 → entryOK start rows cols (k + 1) pos path
  hVb : ∀ q : Position, posKey q ∈ V → inBoundsPos q rows cols ∧ manhattan start q ≤ k
  hlt : ∀ q : Position, inBoundsPos q rows cols → manhattan start q < k → posKey q ∈ V
  hcov : ∀ q : Position, inBoundsPos q rows cols → manhattan start q ≤ k →
    posKey q ∈ V ∨ ∃ π, (q, π) ∈ Q1
  hnext : ∀ q : Position, inBoundsPos q rows cols → manhattan start q = k + 1 →
    posKey q ∈ V ∨ (∃ π, (q, π) ∈ Q2) ∨
      ∃ p π, stepAdj p q ∧ manhattan start p = k ∧ (p, π) ∈ Q1
  hchild : ∀ p q : Position, posKey p ∈ V → stepAdj p q → inBoundsPos q rows cols →
    posKey q ∈ V ∨ ∃ π, (q, π) ∈ Q1 ∨ (q, π) ∈ Q2
  hendV : posKey endP ∉ V

/-- The list of entries pushed when expanding position `p` (path `π`)
against visited set `W`, exactly as in the loop body. -/
def bfsExpand (p : Position) (π : List Position) (rows cols : Nat)
    (W : Finset (Int × Int)) : List (Position × List Position) :=
  ((neighborsOf p).filter (fun q =>
    isValidPosition q rows cols && decide (posKey q ∉ W))).map
    (fun q => (q, π ++ [q]))

theorem mem_bfsExpand (p : Position) (π : List Position) (rows cols : Nat)
    (W : Finset (Int × Int)) (q : Position) (σ : List Position) :
    (q, σ) ∈ bfsExpand p π rows cols W ↔
      stepAdj p q ∧ inBoundsPos q rows cols ∧ posKey q ∉ W ∧ σ = π ++ [q] := by
  simp only [bfsExpand, List.mem_map, List.mem_filter, Bool.and_eq_true,
    decide_eq_true_eq, Prod.mk.injEq]
  constructor
  · rintro ⟨x, ⟨hxn, hval, hnv⟩, hx1, hx2⟩
    subst hx1
    exact ⟨(mem_neighborsOf_iff _ _).mp hxn, (isValidPosition_iff _ _ _).mp hval,
      hnv, hx2.symm⟩
  · rintro ⟨hadj, hb, hnv, rfl⟩
    exact ⟨q, ⟨(mem_neighborsOf_iff _ _).mpr hadj, (isValidPosition_iff _ _ _).mpr hb,
      hnv⟩, rfl, rfl⟩

theorem bfsExpand_length_le (p : Position) (π : List Position) (rows cols : Nat)
    (W : Finset (Int × Int)) : (bfsExpand p π rows cols W).length ≤ 4 := by
  rw [bfsExpand, List.length_map]
  exact le_trans (List.length_filter_le _ _) (by simp [neighborsOf])

theorem bfsLoop_succ_dup (endP : Position) (rows cols fuel : Nat)
    (V : Finset (Int × Int)) (p : Position) (π : List Position)
    (rest : List (Position × List Position)) (hpv : posKey p ∈ V) :
    bfsLoop endP rows cols (fuel + 1) V ((p, π) :: rest) =
      bfsLoop endP rows cols fuel V rest := by
  simp only [bfsLoop]
  rw [if_pos hpv]

theorem bfsLoop_succ_found (endP : Position) (rows cols fuel : Nat)
    (V : Finset (Int × Int)) (p : Position) (π : List Position)
    (rest : List (Position × List Position)) (hpv : posKey p ∉ V)
    (hpe : p.row = endP.row ∧ p.col = endP.col) :
    bfsLoop endP rows cols (fuel + 1) V ((p, π) :: rest) = π := by
  simp only [bfsLoop]
  rw [if_neg hpv, if_pos hpe]

theorem bfsLoop_succ_new (endP : Position) (rows cols fuel : Nat)
    (V : Finset (Int × Int)) (p : Position) (π : List Position)
    (rest : List (Position × List Position)) (hpv : posKey p ∉ V)
    (hpe : ¬(p.row = endP.row ∧ p.col = endP.col)) :
    bfsLoop endP rows cols (fuel + 1) V ((p, π) :: rest) =
      bfsLoop endP rows cols fuel (insert (posKey p) V)
        (rest ++ bfsExpand p π rows cols (insert (posKey p) V)) := by
  simp only [bfsLoop]
  rw [if_neg hpv, if_neg hpe]
  rfl

theorem bfs_inv_empty_absurd (start endP : Position) (rows cols k : Nat)
    (V : Finset (Int × Int))
    (hstart : inBoundsPos start rows cols) (hend : inBoundsPos endP rows cols)
    (inv : BfsInv start endP rows cols k V [] []) : False := by
  obtain ⟨hQ1, hQ2, hVb, hlt, hcov, hnext, hchild, hendV⟩ := inv
  rcases Nat.lt_or_ge (manhattan start endP) (k + 1) with h | h
  · rcases hcov endP hend (Nat.lt_succ_iff.mp h) with hv | ⟨π, hπ⟩
    · exact hendV hv
    · exact (List.not_mem_nil _) hπ
  · rcases Nat.eq_or_lt_of_le h with heq | hgt
    · rcases hnext endP hend heq.symm with hv | ⟨π, hπ⟩ | ⟨p, π, _, _, hπ⟩
      · exact hendV hv
      · exact (List.not_mem_nil _) hπ
      · exact (List.not_mem_nil _) hπ
    · have hq : manhattan start (interp start endP (k + 1)) = k + 1 := interp_dist _ _ _
      have hqb : inBoundsPos (interp start endP (k + 1)) rows cols :=
        interp_bounds start endP rows cols (k + 1) (by omega) hstart hend
      rcases hnext _ hqb hq with hv | ⟨π, hπ⟩ | ⟨p, π, _, _, hπ⟩
      · have := (hVb _ hv).2
        omega
      · exact (List.not_mem_nil _) hπ
      · exact (List.not_mem_nil _) hπ

theorem bfs_level_shift (start endP : Position) (rows cols k : Nat)
    (V : Finset (Int × Int)) (Q2 : List (Position × List Position))
    (hstart : inBoundsPos start rows cols)
    (inv : BfsInv start endP rows cols k V [] Q2) :
    BfsInv start endP rows cols (k + 1) V Q2 [] := by
  obtain ⟨hQ1, hQ2, hVb, hlt, hcov, hnext, hchild, hendV⟩ := inv
  have hltS : ∀ q : Position, inBoundsPos q rows cols →
      manhattan start q < k + 1 → posKey q ∈ V := by
    intro q hqb hqd
    rcases hcov q hqb (Nat.lt_succ_iff.mp hqd) with hv | ⟨π, hπ⟩
    · exact hv
    · exact absurd hπ (List.not_mem_nil _)
  refine ⟨hQ2, ?_, ?_, hltS, ?_, ?_, ?_, hendV⟩
  · intro pos path hmem
    exact absurd hmem (List.not_mem_nil _)
  · intro q hq
    exact ⟨(hVb q hq).1, Nat.le_succ_of_le (hVb q hq).2⟩
  · intro q hqb hqd
    rcases Nat.lt_or_ge (manhattan start q) (k + 1) with h | h
    · left
      exact hltS q hqb h
    · have hd : manhattan start q = k + 1 := Nat.le_antisymm hqd h
      rcases hnext q hqb hd with hv | ⟨π, hπ⟩ | ⟨p, π, _, _, hπ⟩
      · left
        exact hv
      · right
        exact ⟨π, hπ⟩
      · exact absurd hπ (List.not_mem_nil _)
  · intro q hqb hqd
    have hpd : manhattan start (interp start q (k + 1)) = k + 1 := interp_dist _ _ _
    have hpb : inBoundsPos (interp start q (k + 1)) rows cols :=
      interp_bounds start q rows cols (k + 1) (by omega) hstart hqb
    have hadj : stepAdj (interp start q (k + 1)) q := by
      have h := interp_adj start q (k + 1)
      rwa [interp_last start q (k + 1 + 1) hqd] at h
    rcases hnext _ hpb hpd with hv | ⟨π, hπ⟩ | ⟨p2, π, _, _, hπ⟩
    · exfalso
      have := (hVb _ hv).2
      omega
    · right
      right
      exact ⟨interp start q (k + 1), π, hadj, hpd, hπ⟩
    · exact absurd hπ (List.not_mem_nil _)
  · intro p q hpV hadj hqb
    rcases hchild p q hpV hadj hqb with hv | ⟨π, hπ | hπ⟩
    · left
      exact hv
    · exact absurd hπ (List.not_mem_nil _)
    · right
      exact ⟨π, Or.inl hπ⟩


/-- One pop of the BFS loop preserves correctness, given the induction
hypothesis for the remaining fuel. -/
theorem bfs_pop (start endP : Position) (rows cols : Nat)
    (hend : inBoundsPos endP rows cols)
    (fuel : Nat)
    (ih : ∀ (k : Nat) (V : Finset (Int × Int)) (Q1 Q2 : List (Position × List Position)),
      BfsInv start endP rows cols k V Q1 Q2 →
      5 * (boundsKeys rows cols \ V).card + (Q1.length + Q2.length) ≤ fuel →
      GoodPath start endP rows cols (bfsLoop endP rows cols fuel V (Q1 ++ Q2)))
    (k : Nat) (V : Finset (Int × Int)) (p : Position) (π : List Position)
    (rest Q2 : List (Position × List Position))
    (inv : BfsInv start endP rows cols k V ((p, π) :: rest) Q2)
    (hM : 5 * (boundsKeys rows cols \ V).card +
      (((p, π) :: rest).length + Q2.length) ≤ fuel + 1) :
    GoodPath start endP rows cols
      (bfsLoop endP rows cols (fuel + 1) V (((p, π) :: rest) ++ Q2)) := by
  obtain ⟨hQ1, hQ2, hVb, hlt, hcov, hnext, hchild, hendV⟩ := inv
  obtain ⟨hπv, hπe, hπl, hpb⟩ := hQ1 p π (List.mem_cons_self _ _)
  simp only [List.length_cons] at hM
  rw [List.cons_append]
  by_cases hpv : posKey p ∈ V
  · -- duplicate pop: p already visited, entry dropped
    rw [bfsLoop_succ_dup endP rows cols fuel V p π (rest ++ Q2) hpv]
    have inv2 : BfsInv start endP rows cols k V rest Q2 := by
      refine ⟨fun pos path hmem => hQ1 pos path (List.mem_cons_of_mem _ hmem),
        hQ2, hVb, hlt, ?_, ?_, ?_, hendV⟩
      · intro q hqb hqd
        rcases hcov q hqb hqd with hv | ⟨π2, hπ2⟩
        · left
          exact hv
        · rcases List.mem_cons.mp hπ2 with heq | hmem
          · left
            simp only [Prod.mk.injEq] at heq
            rw [heq.1]
            exact hpv
          · right
            exact ⟨π2, hmem⟩
      · intro q hqb hqd
        rcases hnext q hqb hqd with hv | hq2 | ⟨p2, π2, hadj2, hd2, hπ2⟩
        · left
          exact hv
        · right
          left
          exact hq2
        · rcases List.mem_cons.mp hπ2 with heq | hmem
          · simp only [Prod.mk.injEq] at heq
            obtain ⟨hp2, -⟩ := heq
            subst hp2
            rcases hchild p2 q hpv hadj2 hqb with hv | ⟨π3, hπ3 | hπ3⟩
            · left
              exact hv
            · exfalso
              obtain ⟨hv3, he3, hl3, -⟩ := hQ1 q π3 hπ3
              have hwb := manhattan_le_walk_length rows cols π3 start hv3
              rw [he3] at hwb
              omega
            · right
              left
              exact ⟨π3, hπ3⟩
          · right
            right
            exact ⟨p2, π2, hadj2, hd2, hmem⟩
      · intro a q haV hadj hqb
        rcases hchild a q haV hadj hqb with hv | ⟨π3, hπ3 | hπ3⟩
        · left
          exact hv
        · rcases List.mem_cons.mp hπ3 with heq | hmem
          · left
            simp only [Prod.mk.injEq] at heq
            rw [heq.1]
            exact hpv
          · right
            exact ⟨π3, Or.inl hmem⟩
        · right
          exact ⟨π3, Or.inr hπ3⟩
    exact ih k V rest Q2 inv2 (by omega)
  · -- p freshly visited; its distance from start is exactly k
    have hdp : manhattan start p = k := by
      have hwb := manhattan_le_walk_length rows cols π start hπv
      rw [hπe] at hwb
      by_contra hne
      exact hpv (hlt p hpb (by omega))
    by_cases hpe : p.row = endP.row ∧ p.col = endP.col
    · -- reached the goal: the stored path is returned
      rw [bfsLoop_succ_found endP rows cols fuel V p π (rest ++ Q2) hpv hpe]
      have hpend : p = endP := by
        obtain ⟨pr, pc⟩ := p
        obtain ⟨er, ec⟩ := endP
        simp only [Position.mk.injEq]
        exact hpe
      refine ⟨hπv, ?_, ?_⟩
      · rw [hπe, hpend]
      · rw [hπl, ← hpend, hdp]
    · -- expand p's neighbours
      rw [bfsLoop_succ_new endP rows cols fuel V p π (rest ++ Q2) hpv hpe,
        List.append_assoc]
      have hNE_ok : ∀ pos path,
          (pos, path) ∈ bfsExpand p π rows cols (insert (posKey p) V) →
          entryOK start rows cols (k + 1) pos path := by
        intro q σ hmem
        rw [mem_bfsExpand] at hmem
        obtain ⟨hadj, hqb, hqnv, rfl⟩ := hmem
        refine ⟨validSteps_concat rows cols q π start hπv (by rw [hπe]; exact hadj) hqb,
          walkEnd_concat q π start, ?_, hqb⟩
        simp [hπl]
      have inv2 : BfsInv start endP rows cols k (insert (posKey p) V) rest
          (Q2 ++ bfsExpand p π rows cols (insert (posKey p) V)) := by
        refine ⟨fun pos path hmem => hQ1 pos path (List.mem_cons_of_mem _ hmem),
          ?_, ?_, ?_, ?_, ?_, ?_, ?_⟩
        · intro pos path hmem
          rcases List.mem_append.mp hmem with h | h
          · exact hQ2 pos path h
          · exact hNE_ok pos path h
        · intro q hq
          rcases Finset.mem_insert.mp hq with heq | hv
          · have hqp : q = p := posKey_inj heq
            subst hqp
            exact ⟨hpb, le_of_eq hdp⟩
          · exact hVb q hv
        · intro q hqb hqd
          exact Finset.mem_insert_of_mem (hlt q hqb hqd)
        · intro q hqb hqd
          rcases hcov q hqb hqd with hv | ⟨π2, hπ2⟩
          · left
            exact Finset.mem_insert_of_mem hv
          · rcases List.mem_cons.mp hπ2 with heq | hmem
            · left
              simp only [Prod.mk.injEq] at heq
              rw [heq.1]
              exact Finset.mem_insert_self _ _
            · right
              exact ⟨π2, hmem⟩
        · intro q hqb hqd
          rcases hnext q hqb hqd with hv | ⟨π2, hπ2⟩ | ⟨p2, π2, hadj2, hd2, hπ2⟩
          · left
            exact Finset.mem_insert_of_mem hv
          · right
            left
            exact ⟨π2, List.mem_append_left _ hπ2⟩
          · rcases List.mem_cons.mp hπ2 with heq | hmem
            · simp only [Prod.mk.injEq] at heq
              obtain ⟨hp2, -⟩ := heq
              subst hp2
              by_cases hqW : posKey q ∈ insert (posKey p2) V
              · left
                exact hqW
              · right
                left
                refine ⟨π ++ [q], List.mem_append_right _ ?_⟩
                exact (mem_bfsExpand p2 π rows cols _ q _).mpr ⟨hadj2, hqb, hqW, rfl⟩
            · right
              right
              exact ⟨p2, π2, hadj2, hd2, hmem⟩
        · intro a q haV hadj hqb
          rcases Finset.mem_insert.mp haV with heq | hv
          · have hap : a = p := posKey_inj heq
            subst hap
            by_cases hqW : posKey q ∈ insert (posKey a) V
            · left
              exact hqW
            · right
              refine ⟨π ++ [q], Or.inr (List.mem_append_right _ ?_)⟩
              exact (mem_bfsExpand a π rows cols _ q _).mpr ⟨hadj, hqb, hqW, rfl⟩
          · rcases hchild a q hv hadj hqb with hv2 | ⟨π3, hπ3 | hπ3⟩
            · left
              exact Finset.mem_insert_of_mem hv2
            · rcases List.mem_cons.mp hπ3 with heq | hmem
              · left
                simp only [Prod.mk.injEq] at heq
                rw [heq.1]
                exact Finset.mem_insert_self _ _
              · right
                exact ⟨π3, Or.inl hmem⟩
            · right
              exact ⟨π3, Or.inr (List.mem_append_left _ hπ3)⟩
        · intro hmem
          rcases Finset.mem_insert.mp hmem with heq | hv
          · have hep : endP = p := posKey_inj heq
            exact hpe ⟨(congrArg Position.row hep).symm, (congrArg Position.col hep).symm⟩
          · exact hendV hv
      have hcard : (boundsKeys rows cols \ insert (posKey p) V).card + 1 =
          (boundsKeys rows cols \ V).card := by
        have hmem : posKey p ∈ boundsKeys rows cols \ V :=
          Finset.mem_sdiff.mpr ⟨(mem_boundsKeys rows cols p).mpr hpb, hpv⟩
        have hset : boundsKeys rows cols \ insert (posKey p) V =
            (boundsKeys rows cols \ V).erase (posKey p) := by
          ext x
          simp only [Finset.mem_sdiff, Finset.mem_erase, Finset.mem_insert]
          tauto
        rw [hset]
        exact Finset.card_erase_add_one hmem
      have hNElen := bfsExpand_length_le p π rows cols (insert (posKey p) V)
      refine ih k (insert (posKey p) V) rest
        (Q2 ++ bfsExpand p π rows cols (insert (posKey p) V)) inv2 ?_
      rw [List.length_append]
      omega


/-- The BFS loop, started in any invariant state with enough fuel,
returns a shortest valid walk to `endP`. -/
theorem bfsLoop_shortest (start endP : Position) (rows cols : Nat)
    (hstart : inBoundsPos start rows cols) (hend : inBoundsPos endP rows cols) :
    ∀ (fuel k : Nat) (V : Finset (Int × Int)) (Q1 Q2 : List (Position × List Position)),
      BfsInv start endP rows cols k V Q1 Q2 →
      5 * (boundsKeys rows cols \ V).card + (Q1.length + Q2.length) ≤ fuel →
      GoodPath start endP rows cols (bfsLoop endP rows cols fuel V (Q1 ++ Q2)) := by
  intro fuel
  induction fuel with
  | zero =>
    intro k V Q1 Q2 inv hM
    exfalso
    have h1 : posKey endP ∈ boundsKeys rows cols \ V :=
      Finset.mem_sdiff.mpr ⟨(mem_boundsKeys rows cols endP).mpr hend, inv.hendV⟩
    have h2 : 0 < (boundsKeys rows cols \ V).card := Finset.card_pos.mpr ⟨_, h1⟩
    omega
  | succ fuel ih =>
    intro k V Q1 Q2 inv hM
    cases Q1 with
    | cons e rest =>
      obtain ⟨p, π⟩ := e
      exact bfs_pop start endP rows cols hend fuel ih k V p π rest Q2 inv hM
    | nil =>
      cases Q2 with
      | nil => exact (bfs_inv_empty_absurd start endP rows cols k V hstart hend inv).elim
      | cons e rest =>
        obtain ⟨p, π⟩ := e
        have inv2 := bfs_level_shift start endP rows cols k V ((p, π) :: rest) hstart inv
        have hm : 5 * (boundsKeys rows cols \ V).card +
            (((p, π) :: rest).length + ([] : List (Position × List Position)).length) ≤
            fuel + 1 := by
          simp only [List.length_cons, List.length_nil] at hM ⊢
          omega
        have h := bfs_pop start endP rows cols hend fuel ih (k + 1) V p π rest [] inv2 hm
        rw [List.nil_append]
        rwa [List.append_nil] at h

/-- `findPath` between two in-bounds positions returns a shortest valid
walk to the goal. -/
theorem findPath_goodPath (start endP : Position) (grid : Grid)
    (hstart : inBoundsPos start grid.length (grid.headD []).length)
    (hend : inBoundsPos endP grid.length (grid.headD []).length) :
    GoodPath start endP grid.length (grid.headD []).length
      (findPath start endP grid) := by
  have hinv : BfsInv start endP grid.length (grid.headD []).length 0 ∅
      [(start, [])] [] := by
    refine ⟨?_, ?_, ?_, ?_, ?_, ?_, ?_, ?_⟩
    · intro pos path hmem
      rw [List.mem_singleton, Prod.mk.injEq] at hmem
      obtain ⟨h1, h2⟩ := hmem
      subst h1
      subst h2
      exact ⟨trivial, rfl, rfl, hstart⟩
    · intro pos path hmem
      exact absurd hmem (List.not_mem_nil _)
    · intro q hq
      exact absurd hq (Finset.not_mem_empty _)
    · intro q hqb hqd
      exact absurd hqd (Nat.not_lt_zero _)
    · intro q hqb hqd
      right
      refine ⟨[], ?_⟩
      have hq : start = q := manhattan_eq_zero (Nat.le_zero.mp hqd)
      rw [← hq]
      exact List.mem_singleton.mpr rfl
    · intro q hqb hqd
      right
      right
      exact ⟨start, [], hqd, manhattan_self start, List.mem_singleton.mpr rfl⟩
    · intro a q haV
      exact absurd haV (Finset.not_mem_empty _)
    · exact Finset.not_mem_empty _
  have hM : 5 * (boundsKeys grid.length (grid.headD []).length \ (∅ : Finset (Int × Int))).card +
      (([(start, ([] : List Position))].length) + ([] : List (Position × List Position)).length) ≤
      5 * grid.length * (grid.headD []).length + 1 := by
    rw [Finset.sdiff_empty, card_boundsKeys, ← Nat.mul_assoc]
    simp
  have h := bfsLoop_shortest start endP grid.length (grid.headD []).length hstart hend
    (5 * grid.length * (grid.headD []).length + 1) 0 ∅ [(start, [])] [] hinv hM
  rw [List.append_nil] at h
  exact h

/-- C7: on an open grid (obstacles are ignored by the pathfinder), findPath
returns a path from A to B whose length equals the Manhattan distance
|A.row - B.row| + |A.col - B.col|, i.e. a shortest 4-connected path; the
path is a valid walk of orthogonal unit steps staying in bounds and ending
at B. -/
theorem findPath_shortest (start endP : Position) (grid : Grid)
    (hstart : inBoundsPos start grid.length (grid.headD []).length)
    (hend : inBoundsPos endP grid.length (grid.headD []).length) :
    (findPath start endP grid).length = manhattan start endP ∧
    validSteps grid.length (grid.headD []).length start (findPath start endP grid) ∧
    walkEnd start (findPath start endP grid) = endP := by
  obtain ⟨h1, h2, h3⟩ := findPath_goodPath start endP grid hstart hend
  exact ⟨h3, h1, h2⟩


theorem findPath_shortest_witness :
    (findPath ⟨0, 0⟩ ⟨2, 1⟩ (List.replicate 3 (List.replicate 3 defaultCell))).length =
      manhattan ⟨0, 0⟩ ⟨2, 1⟩ :=
  (findPath_shortest ⟨0, 0⟩ ⟨2, 1⟩ (List.replicate 3 (List.replicate 3 defaultCell))
    (by decide) (by decide)).1


/-! ## C8: movement bounds and single-axis displacement -/

theorem moveTowardTarget_ok (current target : Position) (rows cols : Nat) (g : Rng)
    (h : inBoundsPos current rows cols) :
    inBoundsPos (moveTowardTarget current target rows cols g).1 rows cols ∧
    manhattan current (moveTowardTarget current target rows cols g).1 ≤ 1 := by
  obtain ⟨cr, cc⟩ := current
  simp only [inBoundsPos] at h
  unfold moveTowardTarget
  simp only [inBoundsPos, manhattan]
  split_ifs <;> simp only [] <;> omega

theorem getD_mem_of_ne_nil {α : Type} (l : List α) (d : α) (g : Rng)
    (hne : l ≠ []) :
    l.getD (randInt 0 ((l.length : Int) - 1) g).1.toNat d ∈ l := by
  have hlen : 1 ≤ l.length := List.length_pos.mpr hne
  have hrange := @randInt_le 0 ((l.length : Int) - 1) (by omega) g
  have hidx : (randInt 0 ((l.length : Int) - 1) g).1.toNat < l.length := by omega
  rw [List.getD_eq_getElem?_getD, List.getElem?_eq_getElem hidx]
  exact List.getElem_mem hidx

theorem getRandomAdjacentPosition_ok (position : Position) (rows cols : Nat) (g : Rng)
    (h : inBoundsPos position rows cols) :
    inBoundsPos (getRandomAdjacentPosition position rows cols g).1 rows cols ∧
    manhattan position (getRandomAdjacentPosition position rows cols g).1 ≤ 1 := by
  unfold getRandomAdjacentPosition
  simp only []
  split_ifs with hE
  · exact ⟨h, by simp [manhattan_self]⟩
  · have hne : (([(⟨-1, 0⟩ : Position), ⟨1, 0⟩, ⟨0, -1⟩, ⟨0, 1⟩].map (fun d =>
        (⟨max 0 (min ((rows : Int) - 1) (position.row + d.row)),
          max 0 (min ((cols : Int) - 1) (position.col + d.col))⟩ : Position))).filter
        (fun p => p.row ≠ position.row ∨ p.col ≠ position.col)) ≠ [] := by
      intro hnil
      rw [hnil] at hE
      exact hE rfl
    have hmem := getD_mem_of_ne_nil _ (⟨0, 0⟩ : Position) g hne
    have hprop : ∀ q ∈ (([(⟨-1, 0⟩ : Position), ⟨1, 0⟩, ⟨0, -1⟩, ⟨0, 1⟩].map (fun d =>
        (⟨max 0 (min ((rows : Int) - 1) (position.row + d.row)),
          max 0 (min ((cols : Int) - 1) (position.col + d.col))⟩ : Position))).filter
        (fun p => p.row ≠ position.row ∨ p.col ≠ position.col)),
        inBoundsPos q rows cols ∧ manhattan position q ≤ 1 := by
      intro q hq
      rw [List.mem_filter] at hq
      obtain ⟨hq, -⟩ := hq
      rw [List.mem_map] at hq
      obtain ⟨d, hd, rfl⟩ := hq
      simp only [List.mem_cons, List.not_mem_nil, or_false] at hd
      obtain ⟨pr, pc⟩ := position
      simp only [inBoundsPos, manhattan] at h ⊢
      rcases hd with rfl | rfl | rfl | rfl <;> simp only [] <;> omega
    exact hprop _ hmem

theorem calculateStandardMove_ok (position muncher : Position) (grid : Grid)
    (ai : EnemyAI) (g : Rng)
    (h : inBoundsPos position grid.length (grid.headD []).length) :
    inBoundsPos (calculateStandardMove position muncher grid ai g).1
      grid.length (grid.headD []).length ∧
    manhattan position (calculateStandardMove position muncher grid ai g).1 ≤ 1 := by
  unfold calculateStandardMove
  simp only []
  split_ifs
  · exact moveTowardTarget_ok _ _ _ _ _ h
  · exact getRandomAdjacentPosition_ok _ _ _ _ h

theorem calculateSpeedMove_ok (position muncher : Position) (grid : Grid)
    (ai : EnemyAI) (g : Rng)
    (h : inBoundsPos position grid.length (grid.headD []).length) :
    inBoundsPos (calculateSpeedMove position muncher grid ai g).1
      grid.length (grid.headD []).length ∧
    manhattan position (calculateSpeedMove position muncher grid ai g).1 ≤ 1 := by
  unfold calculateSpeedMove
  simp only []
  split_ifs
  · exact moveTowardTarget_ok _ _ _ _ _ h
  · exact getRandomAdjacentPosition_ok _ _ _ _ h

theorem calculateBlockerMove_ok (position muncher : Position) (grid stateGrid : Grid)
    (g : Rng)
    (h : inBoundsPos position grid.length (grid.headD []).length) :
    inBoundsPos (calculateBlockerMove position muncher grid stateGrid g).1
      grid.length (grid.headD []).length ∧
    manhattan position (calculateBlockerMove position muncher grid stateGrid g).1 ≤ 1 := by
  unfold calculateBlockerMove
  simp only []
  split
  · exact moveTowardTarget_ok _ _ _ _ _ h
  · split
    · exact moveTowardTarget_ok _ _ _ _ _ h
    · exact moveTowardTarget_ok _ _ _ _ _ h

theorem calculateHunterMove_ok (position muncher : Position) (grid : Grid)
    (allTroggles : List TroggleState) (g : Rng)
    (h : inBoundsPos position grid.length (grid.headD []).length) :
    inBoundsPos (calculateHunterMove position muncher grid allTroggles g).1
      grid.length (grid.headD []).length ∧
    manhattan position (calculateHunterMove position muncher grid allTroggles g).1 ≤ 1 := by
  unfold calculateHunterMove
  simp only []
  split_ifs
  · split
    · exact moveTowardTarget_ok _ _ _ _ _ h
    · exact moveTowardTarget_ok _ _ _ _ _ h
  · exact moveTowardTarget_ok _ _ _ _ _ h

theorem calculateSmartMove_fresh_ok (position muncher : Position) (grid : Grid)
    (etype : EnemyType) (ai : EnemyAI) (g : Rng)
    (hp : inBoundsPos position grid.length (grid.headD []).length)
    (hm : inBoundsPos muncher grid.length (grid.headD []).length) :
    inBoundsPos
      (calculateSmartMove position muncher grid ⟨position, etype, ai, none, [], 0⟩ g).1
      grid.length (grid.headD []).length ∧
    manhattan position
      (calculateSmartMove position muncher grid ⟨position, etype, ai, none, [], 0⟩ g).1 ≤ 1 := by
  unfold calculateSmartMove
  simp only [List.isEmpty_nil, if_true]
  cases hfp : findPath position muncher grid with
  | nil =>
    simp only []
    exact moveTowardTarget_ok _ _ _ _ _ hp
  | cons nextStep restPath =>
    simp only []
    split_ifs with hv
    · obtain ⟨hsteps, -, -⟩ := findPath_goodPath position muncher grid hp hm
      rw [hfp] at hsteps
      obtain ⟨hadj, hb, -⟩ := hsteps
      exact ⟨hb, le_of_eq hadj⟩
    · exact moveTowardTarget_ok _ _ _ _ _ hp

theorem calculateNextMove_fresh_ok (tpos : Position) (etype : EnemyType) (ai : EnemyAI)
    (s : GameState) (allT : List TroggleState) (g : Rng)
    (hp : inBoundsPos tpos s.grid.length (s.grid.headD []).length)
    (hm : inBoundsPos s.muncher s.grid.length (s.grid.headD []).length) :
    inBoundsPos (calculateNextMove ⟨tpos, etype, ai, none, [], 0⟩ s allT g).1
      s.grid.length (s.grid.headD []).length ∧
    manhattan tpos (calculateNextMove ⟨tpos, etype, ai, none, [], 0⟩ s allT g).1 ≤ 1 := by
  unfold calculateNextMove
  simp only []
  rw [if_neg (by omega : ¬ ((0 : Int) < 0))]
  cases hat : ai.type with
  | standard =>
    simp only []
    exact calculateStandardMove_ok _ _ _ _ _ hp
  | speed =>
    simp only []
    exact calculateSpeedMove_ok _ _ _ _ _ hp
  | smart =>
    simp only []
    exact calculateSmartMove_fresh_ok _ _ _ _ _ _ hp hm
  | blocker =>
    simp only []
    exact calculateBlockerMove_ok _ _ _ _ _ hp
  | hunter =>
    simp only []
    exact calculateHunterMove_ok _ _ _ _ _ hp


theorem listUpdate_length {α : Type} :
    ∀ (l : List α) (n : Nat) (f : α → α), (listUpdate l n f).length = l.length := by
  intro l
  induction l with
  | nil => intro n f; rfl
  | cons x xs ih =>
    intro n f
    cases n with
    | zero => rfl
    | succ n => simp [listUpdate, ih]

theorem setCell_length (grid : Grid) (r c : Int) (f : Cell → Cell) :
    (setCell grid r c f).length = grid.length := listUpdate_length _ _ _

theorem setCell_headD_length (grid : Grid) (r c : Int) (f : Cell → Cell) :
    ((setCell grid r c f).headD []).length = ((grid.headD []).length) := by
  unfold setCell
  cases grid with
  | nil => rfl
  | cons r0 rest =>
    cases hr : r.toNat with
    | zero => simp [listUpdate, List.headD, listUpdate_length]
    | succ n => simp [listUpdate, List.headD]

/-- One new Troggle position per tick: in bounds, and within one
orthogonal unit step of the old position. -/
def TroggleStepOK (rows cols : Nat) (old new : Position) : Prop :=
  inBoundsPos new rows cols ∧ manhattan old new ≤ 1

theorem moveTrogglesClassicStep_spec (rows cols : Nat)
    (acc : Grid × List Position × Rng) (troggle : Position)
    (h : inBoundsPos troggle rows cols) :
    ∃ p' : Position,
      (moveTrogglesClassicStep rows cols acc troggle).2.1 = acc.2.1 ++ [p'] ∧
      TroggleStepOK rows cols troggle p' ∧
      (moveTrogglesClassicStep rows cols acc troggle).1.length = acc.1.length ∧
      ((moveTrogglesClassicStep rows cols acc troggle).1.headD []).length =
        (acc.1.headD []).length := by
  obtain ⟨tr, tc⟩ := troggle
  simp only [inBoundsPos] at h
  unfold moveTrogglesClassicStep
  simp only []
  split_ifs with hc
  · have hd := @randInt_le (-1) 1 (by omega) (mathRandom acc.2.2).2
    refine ⟨_, rfl, ⟨?_, ?_⟩, ?_, ?_⟩
    · simp only [inBoundsPos]
      omega
    · simp only [manhattan]
      omega
    · rw [setCell_length, setCell_length]
    · rw [setCell_headD_length, setCell_headD_length]
  · have hd := @randInt_le (-1) 1 (by omega) (mathRandom acc.2.2).2
    refine ⟨_, rfl, ⟨?_, ?_⟩, ?_, ?_⟩
    · simp only [inBoundsPos]
      omega
    · simp only [manhattan]
      omega
    · rw [setCell_length, setCell_length]
    · rw [setCell_headD_length, setCell_headD_length]

theorem moveTrogglesLevelStep_spec (state : GameState) (dl : Nat)
    (lts : List EnemyType) (acc : Grid × List Position × Rng) (i : Nat)
    (hm : inBoundsPos state.muncher state.grid.length (state.grid.headD []).length)
    (hi : inBoundsPos (state.troggles.getD i ⟨0, 0⟩)
      state.grid.length (state.grid.headD []).length) :
    ∃ p' : Position,
      (moveTrogglesLevelStep state dl lts acc i).2.1 = acc.2.1 ++ [p'] ∧
      TroggleStepOK state.grid.length (state.grid.headD []).length
        (state.troggles.getD i ⟨0, 0⟩) p' ∧
      (moveTrogglesLevelStep state dl lts acc i).1.length = acc.1.length ∧
      ((moveTrogglesLevelStep state dl lts acc i).1.headD []).length =
        (acc.1.headD []).length := by
  unfold moveTrogglesLevelStep
  simp only []
  have hok := calculateNextMove_fresh_ok (state.troggles.getD i ⟨0, 0⟩)
    (if lts.isEmpty then .standard else lts.getD (i % lts.length) .standard)
    (createEnemyAI (if lts.isEmpty then .standard else lts.getD (i % lts.length) .standard) dl)
    state [] acc.2.2 hi hm
  refine ⟨_, rfl, ⟨hok.1, hok.2⟩, ?_, ?_⟩
  · rw [setCell_length, setCell_length]
  · rw [setCell_headD_length, setCell_headD_length]

theorem classicFold_spec (rows cols : Nat) :
    ∀ (ts : List Position), (∀ t ∈ ts, inBoundsPos t rows cols) →
      ∀ (acc : Grid × List Position × Rng),
      ∃ suffix : List Position,
        (ts.foldl (moveTrogglesClassicStep rows cols) acc).2.1 = acc.2.1 ++ suffix ∧
        List.Forall₂ (TroggleStepOK rows cols) ts suffix ∧
        (ts.foldl (moveTrogglesClassicStep rows cols) acc).1.length = acc.1.length ∧
        ((ts.foldl (moveTrogglesClassicStep rows cols) acc).1.headD []).length =
          (acc.1.headD []).length := by
  intro ts
  induction ts with
  | nil =>
    intro _ acc
    exact ⟨[], (List.append_nil _).symm, List.Forall₂.nil, rfl, rfl⟩
  | cons t ts ih =>
    intro hall acc
    simp only [List.foldl_cons]
    obtain ⟨p1, hp1eq, hp1ok, hg1, hg2⟩ :=
      moveTrogglesClassicStep_spec rows cols acc t (hall t (List.mem_cons_self _ _))
    obtain ⟨suf, hsuf, hfa, hg3, hg4⟩ :=
      ih (fun x hx => hall x (List.mem_cons_of_mem _ hx))
        (moveTrogglesClassicStep rows cols acc t)
    refine ⟨p1 :: suf, ?_, List.Forall₂.cons hp1ok hfa, ?_, ?_⟩
    · rw [hsuf, hp1eq, List.append_assoc]
      rfl
    · rw [hg3, hg1]
    · rw [hg4, hg2]

theorem levelFold_spec (state : GameState) (dl : Nat) (lts : List EnemyType)
    (hm : inBoundsPos state.muncher state.grid.length (state.grid.headD []).length)
    (htr : ∀ t ∈ state.troggles,
      inBoundsPos t state.grid.length (state.grid.headD []).length) :
    ∀ (n : Nat), n ≤ state.troggles.length →
      ∀ (acc : Grid × List Position × Rng),
      ∃ suffix : List Position,
        ((List.range n).foldl (moveTrogglesLevelStep state dl lts) acc).2.1 =
          acc.2.1 ++ suffix ∧
        List.Forall₂ (TroggleStepOK state.grid.length (state.grid.headD []).length)
          (state.troggles.take n) suffix ∧
        ((List.range n).foldl (moveTrogglesLevelStep state dl lts) acc).1.length =
          acc.1.length ∧
        (((List.range n).foldl (moveTrogglesLevelStep state dl lts) acc).1.headD
          []).length = (acc.1.headD []).length := by
  intro n
  induction n with
  | zero =>
    intro _ acc
    exact ⟨[], (List.append_nil _).symm, by simp, rfl, rfl⟩
  | succ n ih =>
    intro hn acc
    rw [List.range_succ, List.foldl_append]
    obtain ⟨suf, hsuf, hfa, hg1, hg2⟩ := ih (by omega) acc
    have hnth : inBoundsPos (state.troggles.getD n ⟨0, 0⟩)
        state.grid.length (state.grid.headD []).length := by
      apply htr
      have hlt : n < state.troggles.length := by omega
      rw [List.getD_eq_getElem?_getD, List.getElem?_eq_getElem hlt]
      exact List.getElem_mem hlt
    obtain ⟨p1, hp1eq, hp1ok, hg3, hg4⟩ :=
      moveTrogglesLevelStep_spec state dl lts
        ((List.range n).foldl (moveTrogglesLevelStep state dl lts) acc) n hm hnth
    simp only [List.foldl_cons, List.foldl_nil]
    refine ⟨suf ++ [p1], ?_, ?_, ?_, ?_⟩
    · rw [hp1eq, hsuf, List.append_assoc]
    · have htake : state.troggles.take (n + 1) =
          state.troggles.take n ++ [state.troggles.getD n ⟨0, 0⟩] := by
        have hlt : n < state.troggles.length := by omega
        rw [List.take_succ, List.getElem?_eq_getElem hlt, List.getD_eq_getElem?_getD,
          List.getElem?_eq_getElem hlt]
        rfl
      rw [htake]
      exact List.rel_append hfa (List.Forall₂.cons hp1ok List.Forall₂.nil)
    · rw [hg3, hg1]
    · rw [hg4, hg2]

theorem runTroggleMoves_spec (state : GameState) (g : Rng)
    (hm : inBoundsPos state.muncher state.grid.length (state.grid.headD []).length)
    (htr : ∀ t ∈ state.troggles,
      inBoundsPos t state.grid.length (state.grid.headD []).length) :
    List.Forall₂ (TroggleStepOK state.grid.length (state.grid.headD []).length)
      state.troggles (runTroggleMoves state g).2.1 ∧
    (runTroggleMoves state g).1.length = state.grid.length ∧
    ((runTroggleMoves state g).1.headD []).length = (state.grid.headD []).length := by
  unfold runTroggleMoves
  simp only []
  split_ifs with hlvl
  · obtain ⟨suf, hsuf, hfa, hg1, hg2⟩ :=
      levelFold_spec state
        (getDifficultyLevel (match state.currentLevel with
          | some l => if l.id = 0 then 1 else l.id
          | none => 1))
        (match state.currentLevel with
          | some l => l.parameters.enemyTypes
          | none => [.standard])
        hm htr state.troggles.length (le_refl _) (state.grid, [], g)
    rw [List.take_length] at hfa
    rw [hsuf]
    exact ⟨hfa, hg1, hg2⟩
  · obtain ⟨suf, hsuf, hfa, hg1, hg2⟩ :=
      classicFold_spec state.grid.length (state.grid.headD []).length
        state.troggles htr (state.grid, [], g)
    rw [hsuf]
    exact ⟨hfa, hg1, hg2⟩


/-- Well-formed dynamic state: the Muncher and every Troggle sit inside
the grid. -/
def WFState (s : GameState) : Prop :=
  inBoundsPos s.muncher s.grid.length (s.grid.headD []).length ∧
  ∀ t ∈ s.troggles, inBoundsPos t s.grid.length (s.grid.headD []).length

instance (s : GameState) : Decidable (WFState s) := by
  unfold WFState
  infer_instance

theorem WFState_of_fields {s2 s : GameState} (hwf : WFState s)
    (hgl : s2.grid.length = s.grid.length)
    (hgh : (s2.grid.headD []).length = (s.grid.headD []).length)
    (hmu : s2.muncher = s.muncher) (htg : s2.troggles = s.troggles) : WFState s2 := by
  obtain ⟨hm, htr⟩ := hwf
  constructor
  · rw [hgl, hgh, hmu]
    exact hm
  · rw [hgl, hgh, htg]
    exact htr

theorem forall₂_mem_right {α β : Type} {R : α → β → Prop} :
    ∀ {l₁ : List α} {l₂ : List β}, List.Forall₂ R l₁ l₂ → ∀ b ∈ l₂, ∃ a ∈ l₁, R a b := by
  intro l₁ l₂ h
  induction h with
  | nil =>
    intro b hb
    cases hb
  | cons hr ht ih =>
    intro b hb
    rcases List.mem_cons.mp hb with rfl | hb
    · exact ⟨_, List.mem_cons_self _ _, hr⟩
    · obtain ⟨a, ha, hra⟩ := ih b hb
      exact ⟨a, List.mem_cons_of_mem _ ha, hra⟩

theorem foldl_inv {α β : Type} (f : β → α → β) (P : β → Prop)
    (hstep : ∀ b a, P b → P (f b a)) :
    ∀ (l : List α) (b : β), P b → P (l.foldl f b) := by
  intro l
  induction l with
  | nil =>
    intro b hb
    exact hb
  | cons x xs ih =>
    intro b hb
    exact ih _ (hstep b x hb)

theorem updateObjectives_fields (s : GameState) :
    (updateObjectives s).grid = s.grid ∧ (updateObjectives s).muncher = s.muncher ∧
    (updateObjectives s).troggles = s.troggles := by
  unfold updateObjectives
  simp only []
  have h := foldl_inv
    (fun (acc : List String × GameState) objective =>
      if acc.1.contains objective.id then acc
      else if checkObjectiveCompletion objective acc.2 then
        (acc.1 ++ [objective.id],
          { acc.2 with score := acc.2.score + objective.points })
      else acc)
    (fun acc => acc.2.grid = s.grid ∧ acc.2.muncher = s.muncher ∧
      acc.2.troggles = s.troggles)
    (by
      intro b a hb
      simp only []
      split_ifs
      · exact hb
      · exact hb
      · exact hb)
    s.objectives (s.completedObjectives, s) ⟨rfl, rfl, rfl⟩
  exact h

theorem moveMuncherWithSound_WF (s : GameState) (dRow dCol : Int)
    (hwf : WFState s) : WFState (moveMuncherWithSound s dRow dCol).2 := by
  have hm := hwf.1
  unfold moveMuncherWithSound
  simp only []
  split_ifs with h1 h2 h3
  · exact hwf
  · exact hwf
  · constructor
    · simp only [setCell_length, setCell_headD_length, inBoundsPos]
      simp only [inBoundsPos] at hm
      omega
    · simp only [setCell_length, setCell_headD_length]
      exact hwf.2
  · constructor
    · simp only [setCell_length, setCell_headD_length, inBoundsPos]
      simp only [inBoundsPos] at hm
      omega
    · simp only [setCell_length, setCell_headD_length]
      exact hwf.2



theorem updateObjectives_grid (s : GameState) :
    (updateObjectives s).grid = s.grid := (updateObjectives_fields s).1

theorem updateObjectives_muncher (s : GameState) :
    (updateObjectives s).muncher = s.muncher := (updateObjectives_fields s).2.1

theorem updateObjectives_troggles (s : GameState) :
    (updateObjectives s).troggles = s.troggles := (updateObjectives_fields s).2.2

theorem muncherEatWithSound_WF (s : GameState) (hwf : WFState s) :
    WFState (muncherEatWithSound s).nextState := by
  unfold muncherEatWithSound
  simp only []
  split_ifs <;>
    exact WFState_of_fields hwf (by simp only [setCell_length])
      (by simp only [setCell_headD_length]) rfl rfl

theorem muncherEatWithScoringAndSound_WF (s : GameState) (r : EatResult)
    (h : muncherEatWithScoringAndSound s = some r) (hwf : WFState s) :
    WFState r.nextState := by
  unfold muncherEatWithScoringAndSound at h
  simp only [] at h
  split_ifs at h <;> (try split at h) <;> (try split at h) <;>
    first
      | (simp only [Option.some.injEq] at h
         subst h
         simp only []
         refine WFState_of_fields hwf ?_ ?_ ?_ ?_ <;>
           simp only [updateObjectives_grid, updateObjectives_muncher,
             updateObjectives_troggles, setCell_length, setCell_headD_length])
      | simp at h

theorem moveTroggles_WF (s : GameState) (g : Rng) (hwf : WFState s) :
    WFState (moveTroggles s g).1 := by
  obtain ⟨hm, htr⟩ := hwf
  unfold moveTroggles
  simp only []
  split_ifs with h1 h2
  · exact ⟨hm, htr⟩
  · obtain ⟨hfa, hg1, hg2⟩ := runTroggleMoves_spec s g hm htr
    constructor
    · simp only []
      rw [hg1, hg2]
      exact hm
    · simp only []
      rw [hg1, hg2]
      intro t ht
      obtain ⟨a, ha, hR⟩ := forall₂_mem_right hfa t ht
      exact hR.1
  · obtain ⟨hfa, hg1, hg2⟩ := runTroggleMoves_spec s g hm htr
    constructor
    · simp only []
      rw [hg1, hg2]
      exact hm
    · simp only []
      rw [hg1, hg2]
      intro t ht
      obtain ⟨a, ha, hR⟩ := forall₂_mem_right hfa t ht
      exact hR.1


/-- One game transition: a Muncher move, a classic-mode eat, a
level-mode eat that does not crash, or one Troggle tick. -/
inductive GameStep : GameState → GameState → Prop
  | move (s : GameState) (dRow dCol : Int) :
      GameStep s (moveMuncherWithSound s dRow dCol).2
  | eatClassic (s : GameState) : GameStep s (muncherEatWithSound s).nextState
  | eatLevel (s : GameState) (r : EatResult)
      (h : muncherEatWithScoringAndSound s = some r) : GameStep s r.nextState
  | tick (s : GameState) (g : Rng) : GameStep s (moveTroggles s g).1

theorem gameStep_WF {s s2 : GameState} (h : GameStep s s2) (hwf : WFState s) :
    WFState s2 := by
  cases h with
  | move dRow dCol => exact moveMuncherWithSound_WF s dRow dCol hwf
  | eatClassic => exact muncherEatWithSound_WF s hwf
  | eatLevel r hr => exact muncherEatWithScoringAndSound_WF s r hr hwf
  | tick g => exact moveTroggles_WF s g hwf

/-- C8: in every state reachable from a well-formed start by the game's
input and tick transitions, the Muncher and every Troggle lie within
[0, rows) × [0, cols); every requested Muncher move lands in bounds (an
exiting delta is clamped, never wrapped), and one Troggle tick moves
each Troggle to an in-bounds cell changing at most one coordinate, by at
most 1 (never diagonally). -/
theorem movement_in_bounds_single_axis (s0 s : GameState)
    (hwf : WFState s0) (hreach : Relation.ReflTransGen GameStep s0 s) :
    WFState s ∧
    (∀ dRow dCol : Int,
      inBoundsPos (moveMuncherWithSound s dRow dCol).2.muncher
        (moveMuncherWithSound s dRow dCol).2.grid.length
        ((moveMuncherWithSound s dRow dCol).2.grid.headD []).length) ∧
    ∀ g : Rng,
      List.Forall₂ (TroggleStepOK s.grid.length (s.grid.headD []).length)
        s.troggles (runTroggleMoves s g).2.1 := by
  have hwfs : WFState s := by
    induction hreach with
    | refl => exact hwf
    | tail hr hstep ih => exact gameStep_WF hstep ih
  refine ⟨hwfs, ?_, ?_⟩
  · intro dRow dCol
    exact (moveMuncherWithSound_WF s dRow dCol hwfs).1
  · intro g
    exact (runTroggleMoves_spec s g hwfs.1 hwfs.2).1

theorem movement_in_bounds_single_axis_witness :
    WFState aiProbeState ∧
    (∀ dRow dCol : Int,
      inBoundsPos (moveMuncherWithSound aiProbeState dRow dCol).2.muncher
        (moveMuncherWithSound aiProbeState dRow dCol).2.grid.length
        ((moveMuncherWithSound aiProbeState dRow dCol).2.grid.headD []).length) ∧
    ∀ g : Rng,
      List.Forall₂
        (TroggleStepOK aiProbeState.grid.length (aiProbeState.grid.headD []).length)
        aiProbeState.troggles (runTroggleMoves aiProbeState g).2.1 :=
  movement_in_bounds_single_axis aiProbeState aiProbeState (by decide)
    Relation.ReflTransGen.refl

end Chompers
